import Mathlib

/-!
Verification of the LOA TOML-to-JSON converter (`toml_to_json.py`).

The source program is dynamically typed Python operating on parsed TOML
data.  We embed it shallowly: TOML/Python values become the inductive
type `PyVal`; Python dictionaries become insertion-ordered association
lists; Python code that can raise becomes `Except String`; the rest is
pure.  The functions `sector_from_string`, `convert_one` (via
`convert_step` / `convert_rest`) and `merge_results` are direct
translations of the functions of the same name in the source.
-/

namespace LOA

/-- Values of the dynamic (Python / TOML) data model: strings, integers,
booleans, arrays and tables.  (TOML floats and dates do not occur in the
fields this program reads.) -/
inductive PyVal where
  | vStr (s : String)
  | vInt (n : Int)
  | vBool (b : Bool)
  | vList (xs : List PyVal)
  | vDict (kvs : List (String × PyVal))

/-- Python truthiness of a value ("" , 0, False, [], {} are falsy). -/
def truthy : PyVal → Bool
  | .vStr s => !(s = "")
  | .vInt n => !(n = 0)
  | .vBool b => b
  | .vList xs => !xs.isEmpty
  | .vDict kvs => !kvs.isEmpty

/-- Python truthiness of a possibly-absent value (`None` is falsy). -/
def truthyO : Option PyVal → Bool
  | none => false
  | some v => truthy v

/-- First-occurrence lookup in an association list (Python `dict` lookup;
Python dicts have unique keys, so first occurrence is the occurrence). -/
def alookup {α β : Type} [DecidableEq α] : List (α × β) → α → Option β
  | [], _ => none
  | (k, v) :: rest, s => if k = s then some v else alookup rest s

/-- Update the value at a key if present (keeping its position, as a
Python `dict` does), else append the binding at the end. -/
def aset {α β : Type} [DecidableEq α] : List (α × β) → α → β → List (α × β)
  | [], s, c => [(s, c)]
  | (k, v) :: rest, s, c =>
    if k = s then (s, c) :: rest else (k, v) :: aset rest s c

/-- Python `agr.get(key)`: `None` when the key is absent. -/
def dictGet (kvs : List (String × PyVal)) (k : String) : Option PyVal :=
  alookup kvs k

/-- Python `s.split(sep)` on a list of characters (for a one-character
separator): `""` splits to `[""]`, separators at the ends produce empty
pieces. -/
def pySplit (sep : Char) : List Char → List (List Char)
  | [] => [[]]
  | c :: rest =>
    if c = sep then [] :: pySplit sep rest
    else
      match pySplit sep rest with
      | [] => [[c]]
      | h :: t => (c :: h) :: t

/-- Python `s.upper()` (the sector codes handled here are ASCII). -/
def pyUpper (s : String) : String := String.mk (s.toList.map Char.toUpper)

/-- `s.split("/")[-1].upper()` — the computation inside
`sector_from_string` for an actual string. -/
def sectorCode (s : String) : String :=
  pyUpper (String.mk ((pySplit '/' s.toList).getLastD []))

/-- `sector_from_string` from the source, over a dynamically typed
argument: a falsy argument (`None`, `""`, but also `0`, `[]`, …) yields
`None`; a truthy string is split and upper-cased; a truthy non-string
raises `AttributeError` (it has no `.split`). -/
def sector_from_string : Option PyVal → Except String (Option String)
  | none => .ok none
  | some v =>
    if truthy v then
      match v with
      | .vStr s => .ok (some (sectorCode s))
      | _ => .error "AttributeError: split"
    else .ok none

/-- A routing entry as built by `convert_one`: the Python dict
`{field_name: airports, "xfl": level, "nextSectors": ..., "copText": cop,
"waypoints": [cop]}`.  `fieldName` records the variable key
(`"destinations"` or `"origins"`). -/
structure Entry where
  fieldName : String
  airports : PyVal
  xfl : PyVal
  nextSectors : List String
  copText : PyVal
  waypoints : List PyVal

/-- A per-sector object with the two optional list keys
`destinationLoas` / `departureLoas`; `none` means the key is absent. -/
structure SectorCfg where
  destinationLoas : Option (List Entry) := none
  departureLoas : Option (List Entry) := none

/-- Lookup of a list key by name on a sector object. -/
def SectorCfg.getL (cfg : SectorCfg) (name : String) : Option (List Entry) :=
  if name = "destinationLoas" then cfg.destinationLoas
  else if name = "departureLoas" then cfg.departureLoas
  else none

/-- Setting a list key by name on a sector object. -/
def SectorCfg.setL (cfg : SectorCfg) (name : String) (xs : List Entry) : SectorCfg :=
  if name = "destinationLoas" then { cfg with destinationLoas := some xs }
  else if name = "departureLoas" then { cfg with departureLoas := some xs }
  else cfg

/-- The result mapping `{sector: {destinationLoas, departureLoas}}`,
insertion-ordered as a Python dict is. -/
abbrev ResultMap := List (String × SectorCfg)

namespace RM

/-- Python `result[sector]` / `sector in result`. -/
def find (r : ResultMap) (s : String) : Option SectorCfg := alookup r s

/-- Python `result[sector] = cfg`. -/
def set (r : ResultMap) (s : String) (c : SectorCfg) : ResultMap := aset r s c

end RM

/-- The `if ades: ... elif adep: ...` classification, `adep` half. -/
def classify2 : Option PyVal → Option (String × String × PyVal)
  | some d => if truthy d then some ("departureLoas", "origins", d) else none
  | none => none

/-- The `if ades: ... elif adep: ... else: continue` classification of a
record: the chosen list name, output field name and carrying value. -/
def classify : Option PyVal → Option PyVal → Option (String × String × PyVal)
  | some a, adep => if truthy a then some ("destinationLoas", "destinations", a) else classify2 adep
  | none, adep => classify2 adep

/-- `[to_sector] if to_sector else []` (Python truthiness: `None` and
`""` give the empty list). -/
def nextSectorsOf : Option String → List String
  | none => []
  | some ts => if ts = "" then [] else [ts]

/-- Python `level == 0` over a dynamic value (`False == 0` holds in
Python; strings, lists and tables never equal `0`). -/
def pyEqZero : PyVal → Bool
  | .vInt n => n = 0
  | .vBool b => !b
  | _ => false

/-- Python `s.strip()`: drop leading and trailing whitespace. -/
def pyStrip (s : String) : String :=
  String.mk (((s.toList.dropWhile Char.isWhitespace).reverse.dropWhile Char.isWhitespace).reverse)

/-- Python `str(cop).strip() == ""`: only an actual string can be blank
after stripping (`str` of an int, bool, list or table is never blank). -/
def pyStrBlank : PyVal → Bool
  | .vStr s => pyStrip s = ""
  | _ => false

/-- `cop is None or str(cop).strip() == ""`. -/
def copSkip : Option PyVal → Bool
  | none => true
  | some c => pyStrBlank c

/-- The routing entry built at the end of the loop body of
`convert_one`. -/
def mkEntry (fn : String) (airports lvl : PyVal) (ns : List String) (c : PyVal) : Entry :=
  { fieldName := fn, airports := airports, xfl := lvl,
    nextSectors := ns, copText := c, waypoints := [c] }

/-- The two materialising statements of `convert_one`:
`if from_sector not in result: result[from_sector] = {}` and
`if list_name not in result[from_sector]: result[from_sector][list_name] = []`. -/
def materialize (result : ResultMap) (f ln : String) : ResultMap :=
  let r1 := if (RM.find result f).isSome then result else RM.set result f {}
  let cfg := (RM.find r1 f).getD {}
  if (cfg.getL ln).isSome then r1 else RM.set r1 f (cfg.setL ln [])

/-- The loop body of `convert_one` after the two sector codes have been
computed; from this point on the Python code cannot raise, so this part
is a pure function.  Mirrors the source statement by statement:
discard on falsy `from_sector`; classify `ades` / `adep` (discard when
neither is truthy); materialise the sector key and the list key; then
the skip rule (`level == 0 or cop is None or str(cop).strip() == ""`);
otherwise build the entry and append it. -/
def convert_rest (result : ResultMap) (kvs : List (String × PyVal))
    (fs ts : Option String) : ResultMap :=
  match fs with
  | none => result
  | some f =>
    if f = "" then result
    else
      match classify (dictGet kvs "ades") (dictGet kvs "adep") with
      | none => result
      | some (ln, fn, airports) =>
        let r2 := materialize result f ln
        let lvl := (dictGet kvs "level").getD (.vInt 0)
        if pyEqZero lvl then r2
        else
          match dictGet kvs "cop" with
          | none => r2
          | some c =>
            if pyStrBlank c then r2
            else
              let cfg2 := (RM.find r2 f).getD {}
              let xs := (cfg2.getL ln).getD []
              RM.set r2 f (cfg2.setL ln (xs ++ [mkEntry fn airports lvl (nextSectorsOf ts) c]))

/-- One iteration of the loop of `convert_one` over one agreement
record.  A non-table record raises (`agr.get` does not exist); the two
`sector_from_string` calls may raise; the remainder is `convert_rest`. -/
def convert_step (result : ResultMap) (agr : PyVal) : Except String ResultMap :=
  match agr with
  | .vDict kvs => do
    let fs ← sector_from_string (dictGet kvs "from_sector")
    let ts ← sector_from_string (dictGet kvs "to_sector")
    return convert_rest result kvs fs ts
  | _ => .error "AttributeError: get"

/-- `convert_one` from the source, over the `agreements` list of the
parsed TOML data: fold the loop body over the records, starting from the
empty mapping. -/
def convert_one (agreements : List PyVal) : Except String ResultMap :=
  agreements.foldlM convert_step []

/-- The body of the `for sector, sec_cfg in addition.items()` loop of
`merge_results`: ensure the sector key, then for each of the two list
keys present in the partial sector object, ensure the aggregate list and
extend it. -/
def merge_step (target : ResultMap) (p : String × SectorCfg) : ResultMap :=
  let t1 := if (RM.find target p.1).isSome then target else RM.set target p.1 {}
  let cfg := (RM.find t1 p.1).getD {}
  let cfg1 :=
    match p.2.destinationLoas with
    | none => cfg
    | some xs => { cfg with destinationLoas := some ((cfg.destinationLoas.getD []) ++ xs) }
  let cfg2 :=
    match p.2.departureLoas with
    | none => cfg1
    | some xs => { cfg1 with departureLoas := some ((cfg1.departureLoas.getD []) ++ xs) }
  RM.set t1 p.1 cfg2

/-- `merge_results` from the source (functional form: the Python
function mutates `target` in place and returns `None`; here the updated
aggregate is returned). -/
def merge_results (target addition : ResultMap) : ResultMap :=
  addition.foldl merge_step target

/-- `x.getD [] ++ ys` when the partial object has the key, `x` kept
untouched when it does not — the per-key effect of `merge_results`. -/
def optExtend : Option (List Entry) → Option (List Entry) → Option (List Entry)
  | x, none => x
  | x, some ys => some (x.getD [] ++ ys)

/-- The sector object produced by merging a partial sector object `sec`
into an optional previous aggregate object. -/
def mergeCfg (o : Option SectorCfg) (sec : SectorCfg) : SectorCfg :=
  { destinationLoas := optExtend (o.getD {}).destinationLoas sec.destinationLoas,
    departureLoas := optExtend (o.getD {}).departureLoas sec.departureLoas }

/-- The entry list stored in `r` under sector `s` and list key `name`
(empty when the sector or the key is absent). -/
def entriesOf (r : ResultMap) (s : String) (name : String) : List Entry :=
  (((RM.find r s).getD {}).getL name).getD []

/-- The substring of `s` after the last `/` (the whole of `s` when it
has no `/`), stated independently of `pySplit`: the longest suffix of
`s` free of `/`. -/
def afterLastSlash (s : String) : String :=
  String.mk ((s.toList.reverse.takeWhile (fun c => !(c = '/' : Bool))).reverse)

/-- Whether a dynamic value is a string (has `.split`). -/
def PyVal.isStr : PyVal → Bool
  | .vStr _ => true
  | _ => false

/-- The arguments on which `sector_from_string` does not raise: absent,
falsy, or an actual string. -/
def sfsOK : Option PyVal → Bool
  | none => true
  | some v => !truthy v || v.isStr

/-- The records on which the loop body of `convert_one` does not raise:
tables whose `from_sector` and `to_sector` fields are absent, falsy or
strings. -/
def recOK : PyVal → Bool
  | .vDict kvs => sfsOK (dictGet kvs "from_sector") && sfsOK (dictGet kvs "to_sector")
  | _ => false

/-- The Bool form of "is not the separator". -/
def notSep (sep : Char) (c : Char) : Bool := !(c = sep : Bool)

/-- The loop body of `convert_one` succeeds on `agr` and produces no
routing entry: every sector's entry lists are unchanged (empty
containers may still appear). -/
def stepPreserves (res : ResultMap) (agr : PyVal) : Prop :=
  ∃ res', convert_step res agr = .ok res' ∧
    ∀ s name, entriesOf res' s name = entriesOf res s name

/-- The loop body of `convert_one` succeeds on `agr` and appends exactly
the routing entry `e` to sector `f`'s list `ln`, leaving every other
sector and list key unchanged. -/
def stepAppends (res : ResultMap) (agr : PyVal) (f ln : String) (e : Entry) : Prop :=
  ∃ res', convert_step res agr = .ok res' ∧
    ∀ s name, entriesOf res' s name =
      if s = f ∧ name = ln then entriesOf res s name ++ [e] else entriesOf res s name

/-- `convert_one` runs to completion without raising. -/
def convertOK (agrs : List PyVal) : Prop :=
  ∃ r, convert_one agrs = .ok r

/-- What the skip rule leaves behind for a sector `S` none of whose
records survives: the conversion succeeds, `S` carries no routing entry
under any list key, and every list key chosen by a record of `S` that
passed classification is present on `S` holding the empty list (which
in particular puts the key `S` itself in the mapping). -/
def skipTraceOK (agrs : List PyVal) (S : String) : Prop :=
  ∃ r, convert_one agrs = .ok r ∧
    (∀ name, entriesOf r S name = []) ∧
    (∀ agr ∈ agrs, ∀ (kvs : List (String × PyVal)) (ln fn : String) (a : PyVal),
      agr = PyVal.vDict kvs →
      sector_from_string (dictGet kvs "from_sector") = .ok (some S) →
      classify (dictGet kvs "ades") (dictGet kvs "adep") = some (ln, fn, a) →
      ((RM.find r S).getD {}).getL ln = some [])

/-! ### Heap model of `merge_results`

`merge_results` mutates its first argument in place.  To state which
Python objects the call writes, we model the heap explicitly: addresses
are object identities, the heap maps addresses to objects (dicts of
string keys to addresses, lists of addresses, or routing-entry
payloads).  `mergeKey` / `mergeSector` / `merge_results_heap` re-run the
source statement by statement over this heap, allocating a fresh
address for every `{}` / `[]` the source creates; a dynamic-typing
mismatch gives `none`.  The iteration order over `addition.items()` is
the key order read at entry, which agrees with Python whenever the
addition is not mutated during the iteration (the situation of the
separation hypotheses below). -/

/-- Heap addresses (Python object identities). -/
abbrev Addr := Nat

/-- Heap objects: dict objects (string keys, insertion ordered),
list objects, and routing-entry payloads (never inspected by the
merger). -/
inductive HObj where
  | hDict (kvs : List (String × Addr))
  | hList (elems : List Addr)
  | hEntry (e : Entry)

/-- The heap: a finite map from addresses to objects. -/
abbrev Heap := List (Addr × HObj)

/-- Heap lookup. -/
def hfind (h : Heap) (x : Addr) : Option HObj := alookup h x

/-- Heap store (overwrite in place, or allocate at a new address). -/
def hset (h : Heap) (x : Addr) (o : HObj) : Heap := aset h x o

/-- A merger state: the heap together with the next fresh address. -/
structure MState where
  heap : Heap
  fresh : Addr

/-- The `if key in sec_cfg:` body of `merge_results` for one list key:
`if key not in tgt_sec: tgt_sec[key] = []` then
`tgt_sec[key].extend(sec_cfg[key])`, over the heap.  `tsa` is the
address of the aggregate's sector dict (`tgt_sec`), `sca` the address
of the addition's sector dict (`sec_cfg`). -/
def mergeKey (st : MState) (tsa sca : Addr) (key : String) : Option MState :=
  match hfind st.heap sca with
  | some (.hDict sKvs) =>
    match alookup sKvs key with
    | none => some st
    | some ala =>
      match hfind st.heap tsa with
      | some (.hDict tKvs) =>
        let st1 : MState :=
          match alookup tKvs key with
          | some _ => st
          | none =>
            { heap := hset (hset st.heap st.fresh (.hList []))
                tsa (.hDict (aset tKvs key st.fresh)),
              fresh := st.fresh + 1 }
        match hfind st1.heap tsa with
        | some (.hDict tKvs1) =>
          match alookup tKvs1 key with
          | some tla =>
            match hfind st1.heap tla, hfind st1.heap ala with
            | some (.hList tl), some (.hList al) =>
              some { heap := hset st1.heap tla (.hList (tl ++ al)), fresh := st1.fresh }
            | _, _ => none
          | none => none
        | _ => none
      | _ => none
  | _ => none

/-- The body of the `for sector, sec_cfg in addition.items()` loop of
`merge_results` over the heap: ensure the sector key on the aggregate
(`target[sector] = {}` allocates a fresh dict), bind
`tgt_sec = target[sector]`, then handle the two list keys. -/
def mergeSector (tgtAddr : Addr) (st : MState) (p : String × Addr) : Option MState :=
  match hfind st.heap tgtAddr with
  | some (.hDict tKvs) =>
    let st1 : MState :=
      match alookup tKvs p.1 with
      | some _ => st
      | none =>
        { heap := hset (hset st.heap st.fresh (.hDict []))
            tgtAddr (.hDict (aset tKvs p.1 st.fresh)),
          fresh := st.fresh + 1 }
    match hfind st1.heap tgtAddr with
    | some (.hDict tKvs1) =>
      match alookup tKvs1 p.1 with
      | some tsa =>
        match mergeKey st1 tsa p.2 "destinationLoas" with
        | some st2 => mergeKey st2 tsa p.2 "departureLoas"
        | none => none
      | none => none
    | _ => none
  | _ => none

/-- `merge_results` over the heap: fold the loop body over the items of
the addition dict. -/
def merge_results_heap (st : MState) (tgtAddr addAddr : Addr) : Option MState :=
  match hfind st.heap addAddr with
  | some (.hDict aKvs) => aKvs.foldlM (mergeSector tgtAddr) st
  | _ => none

/-- The addresses held by the dict object at `a` (empty if `a` is not a
dict). -/
def dictRange (h : Heap) (a : Addr) : List Addr :=
  match hfind h a with
  | some (.hDict kvs) => kvs.map Prod.snd
  | _ => []

/-- The addresses held by the list object at `a` (empty if `a` is not a
list). -/
def listRange (h : Heap) (a : Addr) : List Addr :=
  match hfind h a with
  | some (.hList xs) => xs
  | _ => []

/-- The skeleton of a result mapping rooted at `a`: the outer dict, its
sector dicts, and their entry lists — the objects `merge_results` may
write through its first argument. -/
def skel (h : Heap) (a : Addr) : List Addr :=
  a :: (dictRange h a ++ (dictRange h a).flatMap (dictRange h))

/-- Every address reachable from the result mapping rooted at `a`:
its skeleton plus the entry objects held by its lists. -/
def reachAll (h : Heap) (a : Addr) : List Addr :=
  skel h a ++ ((dictRange h a).flatMap (dictRange h)).flatMap (listRange h)

/-- The addresses held directly by a heap object. -/
def addrsOf : HObj → List Addr
  | .hDict kvs => kvs.map Prod.snd
  | .hList xs => xs
  | .hEntry _ => []

/-- All addresses of the heap (domain and contents) lie below `f`: then
`f` is genuinely fresh. -/
def heapBounded (h : Heap) (f : Addr) : Prop :=
  ∀ p ∈ h, p.1 < f ∧ ∀ y ∈ addrsOf p.2, y < f

/-! ## Association-list lemmas -/

theorem alookup_aset_self {α β : Type} [DecidableEq α] (l : List (α × β)) (s : α) (c : β) :
    alookup (aset l s c) s = some c := by
  induction l with
  | nil => simp [aset, alookup]
  | cons p rest ih =>
    obtain ⟨k, v⟩ := p
    by_cases h : k = s
    · simp [aset, h, alookup]
    · simp [aset, h, alookup, ih]

theorem alookup_aset_ne {α β : Type} [DecidableEq α] (l : List (α × β)) {s s' : α} (c : β)
    (h : s' ≠ s) : alookup (aset l s c) s' = alookup l s' := by
  have hs : ¬(s = s') := fun hh => h hh.symm
  induction l with
  | nil => simp [aset, alookup, hs]
  | cons p rest ih =>
    obtain ⟨k, v⟩ := p
    by_cases hk : k = s
    · subst hk
      simp [aset, alookup, hs]
    · simp only [aset, if_neg hk, alookup]
      by_cases hk' : k = s' <;> simp [hk', ih]

theorem alookup_eq_none {α β : Type} [DecidableEq α] {l : List (α × β)} {s : α}
    (h : s ∉ l.map Prod.fst) : alookup l s = none := by
  induction l with
  | nil => rfl
  | cons p rest ih =>
    obtain ⟨k, v⟩ := p
    simp only [List.map_cons, List.mem_cons] at h
    push_neg at h
    simp only [alookup]
    rw [if_neg (Ne.symm h.1), ih h.2]

theorem alookup_isSome_of_mem {α β : Type} [DecidableEq α] {l : List (α × β)} {s : α}
    (h : s ∈ l.map Prod.fst) : (alookup l s).isSome = true := by
  induction l with
  | nil => simp at h
  | cons p rest ih =>
    obtain ⟨k, v⟩ := p
    simp only [List.map_cons, List.mem_cons] at h
    simp only [alookup]
    by_cases hk : k = s
    · simp [hk]
    · rcases h with h | h
      · exact absurd h.symm hk
      · simp [hk, ih h]

/-! ## SectorCfg lemmas -/

theorem getL_default (name : String) : SectorCfg.getL {} name = none := by
  unfold SectorCfg.getL
  split <;> simp

theorem getL_setL_self {ln : String} (cfg : SectorCfg) (xs : List Entry)
    (hln : ln = "destinationLoas" ∨ ln = "departureLoas") :
    (cfg.setL ln xs).getL ln = some xs := by
  rcases hln with h | h <;> subst h <;> simp [SectorCfg.setL, SectorCfg.getL]

theorem getL_setL_ne {ln name : String} (cfg : SectorCfg) (xs : List Entry)
    (h : name ≠ ln) : (cfg.setL ln xs).getL name = cfg.getL name := by
  unfold SectorCfg.setL SectorCfg.getL
  by_cases h1 : ln = "destinationLoas" <;> by_cases h2 : ln = "departureLoas" <;>
    by_cases h3 : name = "destinationLoas" <;> by_cases h4 : name = "departureLoas" <;>
    simp_all

/-! ## pySplit: the last piece is the suffix after the last separator -/

theorem pySplit_ne_nil (sep : Char) (l : List Char) : pySplit sep l ≠ [] := by
  cases l with
  | nil => simp [pySplit]
  | cons c rest =>
    simp only [pySplit]
    split
    · simp
    · split <;> simp

theorem pySplit_cons_self (sep : Char) (rest : List Char) :
    pySplit sep (sep :: rest) = [] :: pySplit sep rest := by
  simp [pySplit]

theorem pySplit_cons_ne {sep c : Char} (rest : List Char) (hc : ¬ c = sep)
    {h : List Char} {t : List (List Char)} (heq : pySplit sep rest = h :: t) :
    pySplit sep (c :: rest) = (c :: h) :: t := by
  simp only [pySplit, if_neg hc, heq]

theorem pySplit_of_not_mem {sep : Char} : ∀ {l : List Char}, sep ∉ l → pySplit sep l = [l]
  | [], _ => rfl
  | c :: rest, h => by
    have hc : ¬(c = sep) := fun hh => h (hh ▸ List.mem_cons_self c rest)
    have hr : sep ∉ rest := fun hh => h (List.mem_cons_of_mem c hh)
    rw [pySplit_cons_ne rest hc (pySplit_of_not_mem hr)]

theorem pySplit_two_le {sep : Char} : ∀ {l : List Char}, sep ∈ l → 2 ≤ (pySplit sep l).length := by
  intro l
  induction l with
  | nil => simp
  | cons c rest ih =>
    intro h
    by_cases hc : c = sep
    · subst hc
      rw [pySplit_cons_self, List.length_cons]
      have := List.length_pos_of_ne_nil (pySplit_ne_nil c rest)
      omega
    · have hr : sep ∈ rest := by
        rcases List.mem_cons.mp h with h | h
        · exact absurd h.symm hc
        · exact h
      have h2 := ih hr
      obtain ⟨x, xs, heq⟩ : ∃ x xs, pySplit sep rest = x :: xs := by
        cases hq : pySplit sep rest with
        | nil => exact absurd hq (pySplit_ne_nil sep rest)
        | cons x xs => exact ⟨x, xs, rfl⟩
      rw [pySplit_cons_ne rest hc heq]
      rw [heq] at h2
      simpa using h2

theorem notSep_self (sep : Char) : notSep sep sep = false := by simp [notSep]

theorem all_notSep_iff {sep : Char} {l : List Char} :
    l.all (notSep sep) = true ↔ sep ∉ l := by
  simp only [List.all_eq_true, notSep, Bool.not_eq_eq_eq_not, Bool.not_true,
    decide_eq_false_iff_not]
  constructor
  · intro h hmem
    exact h sep hmem rfl
  · intro h x hx hxx
    exact h (hxx ▸ hx)

theorem takeWhile_append_one {α : Type} (p : α → Bool) (l : List α) (a : α) :
    (l ++ [a]).takeWhile p = if l.all p then l ++ [a].takeWhile p else l.takeWhile p := by
  induction l with
  | nil => simp
  | cons c cs ih =>
    by_cases hc : p c
    · simp only [List.cons_append, List.takeWhile_cons, hc, if_true, List.all_cons,
        Bool.true_and, ih]
      by_cases hall : cs.all p <;> simp [hall]
    · simp [List.takeWhile_cons, List.all_cons, hc]

theorem takeWhile_of_all {α : Type} {p : α → Bool} : ∀ {l : List α}, l.all p → l.takeWhile p = l
  | [], _ => rfl
  | c :: cs, h => by
    simp only [List.all_cons, Bool.and_eq_true] at h
    simp [List.takeWhile_cons, h.1, takeWhile_of_all h.2]

theorem pySplit_getLast (sep : Char) (l : List Char) :
    (pySplit sep l).getLastD [] = (l.reverse.takeWhile (notSep sep)).reverse := by
  induction l with
  | nil => rfl
  | cons c rest ih =>
    have hrev : (c :: rest).reverse = rest.reverse ++ [c] := by simp
    by_cases hc : c = sep
    · subst hc
      rw [pySplit_cons_self, List.getLastD_cons]
      have hgl : (pySplit c rest).getLastD ([] : List Char) =
          (rest.reverse.takeWhile (notSep c)).reverse := ih
      rw [show ((pySplit c rest).getLastD ([] : List Char) =
          (rest.reverse.takeWhile (notSep c)).reverse) from ih]
      rw [hrev, takeWhile_append_one]
      by_cases hall : rest.reverse.all (notSep c)
      · rw [if_pos hall, takeWhile_of_all hall]
        simp [List.takeWhile_cons, notSep_self]
      · rw [if_neg hall]
    · have hpc : notSep sep c = true := by simp [notSep, hc]
      obtain ⟨h, t, heq⟩ : ∃ h t, pySplit sep rest = h :: t := by
        cases hq : pySplit sep rest with
        | nil => exact absurd hq (pySplit_ne_nil sep rest)
        | cons x xs => exact ⟨x, xs, rfl⟩
      rw [pySplit_cons_ne rest hc heq]
      cases t with
      | nil =>
        have hnot : sep ∉ rest := by
          intro hmem
          have := pySplit_two_le hmem
          rw [heq] at this
          simp at this
        have hrest : h = rest := by
          have := pySplit_of_not_mem hnot
          rw [heq] at this
          simpa using this
        have hall : rest.reverse.all (notSep sep) := by
          rw [all_notSep_iff]
          exact fun hmem => hnot (List.mem_reverse.mp hmem)
        rw [hrest, hrev, takeWhile_append_one, if_pos hall]
        simp [List.takeWhile_cons, hpc]
      | cons t0 t1 =>
        have hmem : sep ∈ rest := by
          by_contra hnot
          have := pySplit_of_not_mem hnot
          rw [heq] at this
          simp at this
        have hnall : ¬ rest.reverse.all (notSep sep) = true := by
          rw [all_notSep_iff]
          intro hcon
          exact hcon (List.mem_reverse.mpr hmem)
        have h1 : ((c :: h) :: t0 :: t1).getLastD ([] : List Char) =
            (h :: t0 :: t1).getLastD [] := by
          simp [List.getLastD_cons]
        rw [h1, ← heq, ih, hrev, takeWhile_append_one, if_neg hnall]

theorem sectorCode_eq (s : String) : sectorCode s = pyUpper (afterLastSlash s) := by
  unfold sectorCode afterLastSlash
  rw [pySplit_getLast]
  rfl

/-! ## merge_results lemmas -/

theorem merge_step_find_self (t : ResultMap) (s : String) (sec : SectorCfg) :
    RM.find (merge_step t (s, sec)) s = some (mergeCfg (RM.find t s) sec) := by
  obtain ⟨d, q⟩ := sec
  cases hf : alookup t s with
  | none =>
    cases d <;> cases q <;>
      simp [merge_step, mergeCfg, optExtend, RM.find, RM.set, hf, alookup_aset_self]
  | some cfg =>
    cases d <;> cases q <;>
      simp [merge_step, mergeCfg, optExtend, RM.find, RM.set, hf, alookup_aset_self]

theorem merge_step_find_ne (t : ResultMap) (p : String × SectorCfg) {s' : String}
    (h : s' ≠ p.1) : RM.find (merge_step t p) s' = RM.find t s' := by
  obtain ⟨s, sec⟩ := p
  by_cases hf : (alookup t s).isSome <;>
    simp [merge_step, RM.find, RM.set, hf, alookup_aset_ne _ _ h]

/-- C3: merging a partial result into an aggregate concatenates, per
shared sector and list key, the aggregate entries followed by the
partial entries; sectors and list keys absent from the partial mapping
are left unchanged (hypothesis: the partial mapping has distinct sector
keys, as every Python dict does). -/
theorem merge_results_concat (t a : ResultMap) (ha : (a.map Prod.fst).Nodup) (s : String) :
    RM.find (merge_results t a) s =
      match RM.find a s with
      | none => RM.find t s
      | some sec => some (mergeCfg (RM.find t s) sec) := by
  induction a generalizing t with
  | nil => simp [merge_results, RM.find, alookup]
  | cons p rest ih =>
    obtain ⟨s0, sec0⟩ := p
    simp only [List.map_cons, List.nodup_cons] at ha
    have hfold : merge_results t ((s0, sec0) :: rest) =
        merge_results (merge_step t (s0, sec0)) rest := rfl
    rw [hfold, ih _ ha.2]
    by_cases hs : s = s0
    · subst hs
      have h1 : RM.find rest s = none := alookup_eq_none ha.1
      have h2 : RM.find ((s, sec0) :: rest) s = some sec0 := by simp [RM.find, alookup]
      simp only [h1, h2, merge_step_find_self]
    · have h3 : RM.find ((s0, sec0) :: rest) s = RM.find rest s := by
        simp [RM.find, alookup, Ne.symm hs]
      rw [merge_step_find_ne t _ hs, h3]

theorem merge_results_concat_witness :
    RM.find (merge_results
        [("FRA", (⟨some [mkEntry "destinations" (.vStr "A") (.vInt 1) [] (.vStr "X")],
          none⟩ : SectorCfg))]
        [("FRA", (⟨some [mkEntry "destinations" (.vStr "B") (.vInt 2) [] (.vStr "Y")],
          none⟩ : SectorCfg))]) "FRA" =
      match RM.find [("FRA", (⟨some [mkEntry "destinations" (.vStr "B") (.vInt 2) [] (.vStr "Y")],
          none⟩ : SectorCfg))] "FRA" with
      | none => RM.find [("FRA", (⟨some [mkEntry "destinations" (.vStr "A") (.vInt 1) [] (.vStr "X")],
          none⟩ : SectorCfg))] "FRA"
      | some sec => some (mergeCfg (RM.find
          [("FRA", (⟨some [mkEntry "destinations" (.vStr "A") (.vInt 1) [] (.vStr "X")],
            none⟩ : SectorCfg))] "FRA") sec) :=
  merge_results_concat _ _ (by simp) "FRA"

/-! ## convert_one lemmas -/

theorem sector_from_string_ok {x : Option PyVal} (h : sfsOK x = true) :
    ∃ o, sector_from_string x = .ok o := by
  cases x with
  | none => exact ⟨none, rfl⟩
  | some v =>
    by_cases ht : truthy v
    · have hs : v.isStr = true := by
        simp only [sfsOK, ht, Bool.not_true, Bool.false_or] at h
        exact h
      cases v with
      | vStr s => exact ⟨some (sectorCode s), by simp [sector_from_string, ht]⟩
      | vInt n => simp [PyVal.isStr] at hs
      | vBool b => simp [PyVal.isStr] at hs
      | vList xs => simp [PyVal.isStr] at hs
      | vDict kvs => simp [PyVal.isStr] at hs
    · exact ⟨none, by simp [sector_from_string, ht]⟩

theorem convert_step_eq (res : ResultMap) (kvs : List (String × PyVal))
    {fs ts : Option String}
    (h1 : sector_from_string (dictGet kvs "from_sector") = .ok fs)
    (h2 : sector_from_string (dictGet kvs "to_sector") = .ok ts) :
    convert_step res (.vDict kvs) = .ok (convert_rest res kvs fs ts) := by
  simp only [convert_step, h1, h2]
  rfl

theorem classify_names {ades adep : Option PyVal} {ln fn : String} {a : PyVal}
    (h : classify ades adep = some (ln, fn, a)) :
    (ln = "destinationLoas" ∧ fn = "destinations") ∨
      (ln = "departureLoas" ∧ fn = "origins") := by
  have h2 : ∀ {x : Option PyVal}, classify2 x = some (ln, fn, a) →
      ln = "departureLoas" ∧ fn = "origins" := by
    intro x hx
    cases x with
    | none => simp [classify2] at hx
    | some dv =>
      by_cases htd : truthy dv
      · simp only [classify2, if_pos htd, Option.some_inj] at hx
        exact ⟨congrArg (·.1) hx.symm, congrArg (fun q => q.2.1) hx.symm⟩
      · simp [classify2, htd] at hx
  cases ades with
  | none => exact Or.inr (h2 h)
  | some av =>
    by_cases ht : truthy av
    · simp only [classify, if_pos ht, Option.some_inj] at h
      exact Or.inl ⟨congrArg (·.1) h.symm, congrArg (fun q => q.2.1) h.symm⟩
    · simp only [classify, if_neg ht] at h
      exact Or.inr (h2 h)

/-! ### materialize lemmas -/

theorem find_materialize_ne (res : ResultMap) (f ln : String) {s : String} (h : s ≠ f) :
    RM.find (materialize res f ln) s = RM.find res s := by
  have hne : ∀ (r : ResultMap) (c : SectorCfg), RM.find (RM.set r f c) s = RM.find r s :=
    fun r c => alookup_aset_ne r c h
  unfold materialize
  cases hf : RM.find res f with
  | none =>
    simp only [hf, Option.isSome_none, Bool.false_eq_true, if_false]
    split
    · exact hne ..
    · rw [hne, hne]
  | some cfg =>
    simp only [hf, Option.isSome_some, if_true]
    split
    · rfl
    · exact hne ..

theorem getL_materialize_self (res : ResultMap) (f ln : String)
    (hln : ln = "destinationLoas" ∨ ln = "departureLoas") :
    ((RM.find (materialize res f ln) f).getD {}).getL ln = some (entriesOf res f ln) := by
  unfold materialize entriesOf
  cases hf : RM.find res f with
  | none =>
    have h1 : RM.find (RM.set res f {}) f = some {} := alookup_aset_self ..
    simp only [hf, Option.isSome_none, Bool.false_eq_true, if_false, h1, Option.getD_some,
      getL_default, Option.isSome_none, Option.getD_none]
    have h2 : RM.find (RM.set (RM.set res f {}) f (SectorCfg.setL {} ln [])) f =
        some (SectorCfg.setL {} ln []) := alookup_aset_self ..
    simp only [h2, Option.getD_some, getL_setL_self _ _ hln]
  | some cfg =>
    simp only [hf, Option.isSome_some, if_true, Option.getD_some]
    cases hgl : cfg.getL ln with
    | none =>
      simp only [Option.isSome_none, Bool.false_eq_true, if_false, Option.getD_none]
      have h2 : RM.find (RM.set res f (cfg.setL ln [])) f =
          some (cfg.setL ln []) := alookup_aset_self ..
      simp only [h2, Option.getD_some, getL_setL_self _ _ hln]
    | some xs =>
      simp only [Option.isSome_some, if_true, hf, Option.getD_some, hgl]

theorem getL_materialize_other (res : ResultMap) (f ln : String) {name : String}
    (h : name ≠ ln) :
    ((RM.find (materialize res f ln) f).getD {}).getL name =
      ((RM.find res f).getD {}).getL name := by
  unfold materialize
  cases hf : RM.find res f with
  | none =>
    have h1 : RM.find (RM.set res f {}) f = some {} := alookup_aset_self ..
    simp only [hf, Option.isSome_none, Bool.false_eq_true, if_false, h1, Option.getD_some,
      getL_default, Option.getD_none]
    have h2 : RM.find (RM.set (RM.set res f {}) f (SectorCfg.setL {} ln [])) f =
        some (SectorCfg.setL {} ln []) := alookup_aset_self ..
    simp only [h2, Option.getD_some, getL_setL_ne _ _ h, getL_default]
  | some cfg =>
    simp only [hf, Option.isSome_some, if_true, Option.getD_some]
    cases hgl : cfg.getL ln with
    | none =>
      simp only [Option.isSome_none, Bool.false_eq_true, if_false]
      have h2 : RM.find (RM.set res f (cfg.setL ln [])) f =
          some (cfg.setL ln []) := alookup_aset_self ..
      simp only [h2, Option.getD_some, getL_setL_ne _ _ h]
    | some xs =>
      simp only [Option.isSome_some, if_true, hf, Option.getD_some]

theorem entriesOf_materialize (res : ResultMap) (f ln : String)
    (hln : ln = "destinationLoas" ∨ ln = "departureLoas") (s name : String) :
    entriesOf (materialize res f ln) s name = entriesOf res s name := by
  by_cases hs : s = f
  · subst hs
    by_cases hn : name = ln
    · subst hn
      unfold entriesOf
      rw [getL_materialize_self res s name hln]
      rfl
    · unfold entriesOf
      rw [getL_materialize_other res s ln hn]
  · unfold entriesOf
    rw [find_materialize_ne res f ln hs]

theorem entriesOf_set (r : ResultMap) (f : String) (c : SectorCfg) (s name : String) :
    entriesOf (RM.set r f c) s name =
      if s = f then (c.getL name).getD [] else entriesOf r s name := by
  unfold entriesOf
  by_cases hs : s = f
  · rw [if_pos hs, hs, show RM.find (RM.set r f c) f = some c from alookup_aset_self ..]
    rfl
  · rw [if_neg hs, show RM.find (RM.set r f c) s = RM.find r s from alookup_aset_ne r c hs]

theorem convert_rest_none (res : ResultMap) (kvs : List (String × PyVal)) (ts : Option String) :
    convert_rest res kvs none ts = res := rfl

theorem convert_rest_blank (res : ResultMap) (kvs : List (String × PyVal)) (ts : Option String) :
    convert_rest res kvs (some "") ts = res := by
  simp [convert_rest]

theorem convert_rest_noclass (res : ResultMap) (kvs : List (String × PyVal)) (ts : Option String)
    {f : String} (hf : f ≠ "")
    (hcl : classify (dictGet kvs "ades") (dictGet kvs "adep") = none) :
    convert_rest res kvs (some f) ts = res := by
  simp [convert_rest, hf, hcl]

theorem convert_rest_skip (res : ResultMap) (kvs : List (String × PyVal)) (ts : Option String)
    {f ln fn : String} {airports : PyVal} (hf : f ≠ "")
    (hcl : classify (dictGet kvs "ades") (dictGet kvs "adep") = some (ln, fn, airports))
    (hskip : pyEqZero ((dictGet kvs "level").getD (.vInt 0)) = true ∨
      copSkip (dictGet kvs "cop") = true) :
    convert_rest res kvs (some f) ts = materialize res f ln := by
  by_cases hz : pyEqZero ((dictGet kvs "level").getD (.vInt 0)) = true
  · simp [convert_rest, hf, hcl, hz]
  · have hcs : copSkip (dictGet kvs "cop") = true := by
      rcases hskip with h | h
      · exact absurd h hz
      · exact h
    cases hcop : dictGet kvs "cop" with
    | none => simp [convert_rest, hf, hcl, hz, hcop]
    | some c =>
      have hb : pyStrBlank c = true := by
        rw [hcop] at hcs
        simpa [copSkip] using hcs
      simp [convert_rest, hf, hcl, hz, hcop, hb]

theorem entriesOf_convert_rest_pass (res : ResultMap) (kvs : List (String × PyVal))
    {f : String} {ts : Option String} {ln fn : String} {airports c : PyVal}
    (hf : f ≠ "")
    (hcl : classify (dictGet kvs "ades") (dictGet kvs "adep") = some (ln, fn, airports))
    (hlvl : pyEqZero ((dictGet kvs "level").getD (.vInt 0)) = false)
    (hcop : dictGet kvs "cop" = some c)
    (hblank : pyStrBlank c = false) (s name : String) :
    entriesOf (convert_rest res kvs (some f) ts) s name =
      if s = f ∧ name = ln then
        entriesOf res s name ++
          [mkEntry fn airports ((dictGet kvs "level").getD (.vInt 0)) (nextSectorsOf ts) c]
      else entriesOf res s name := by
  have hln' : ln = "destinationLoas" ∨ ln = "departureLoas" :=
    (classify_names hcl).imp (·.1) (·.1)
  have hxs : ((RM.find (materialize res f ln) f).getD {}).getL ln =
      some (entriesOf res f ln) := getL_materialize_self res f ln hln'
  have hcr : convert_rest res kvs (some f) ts =
      RM.set (materialize res f ln) f
        (((RM.find (materialize res f ln) f).getD {}).setL ln
          ((((RM.find (materialize res f ln) f).getD {}).getL ln).getD [] ++
            [mkEntry fn airports ((dictGet kvs "level").getD (.vInt 0)) (nextSectorsOf ts) c])) := by
    simp [convert_rest, hf, hcl, hlvl, hcop, hblank]
  rw [hcr, entriesOf_set]
  by_cases hs : s = f
  · rw [if_pos hs]
    by_cases hn : name = ln
    · rw [if_pos ⟨hs, hn⟩, hn, getL_setL_self _ _ hln', Option.getD_some, hxs,
        Option.getD_some, hs]
    · rw [getL_setL_ne _ _ hn, if_neg (fun hand => hn hand.2),
        getL_materialize_other res f ln hn, hs]
      rfl
  · rw [if_neg hs, if_neg (fun hand => hs hand.1)]
    exact entriesOf_materialize res f ln hln' s name

theorem find_convert_rest_other (res : ResultMap) (kvs : List (String × PyVal))
    (ts : Option String) {f s : String} (hfs : f ≠ s) :
    RM.find (convert_rest res kvs (some f) ts) s = RM.find res s := by
  have hset : ∀ (r : ResultMap) (c : SectorCfg), RM.find (RM.set r f c) s = RM.find r s :=
    fun r c => alookup_aset_ne r c (Ne.symm hfs)
  have hmatf : ∀ ln, RM.find (materialize res f ln) s = RM.find res s :=
    fun ln => find_materialize_ne res f ln (Ne.symm hfs)
  by_cases hf : f = ""
  · subst hf
    rw [convert_rest_blank]
  · cases hcl : classify (dictGet kvs "ades") (dictGet kvs "adep") with
    | none => rw [convert_rest_noclass res kvs ts hf hcl]
    | some tr =>
      obtain ⟨ln, fn, airports⟩ := tr
      by_cases hz : pyEqZero ((dictGet kvs "level").getD (.vInt 0)) = true
      · rw [convert_rest_skip res kvs ts hf hcl (Or.inl hz)]
        exact hmatf ln
      · have hzf : pyEqZero ((dictGet kvs "level").getD (.vInt 0)) = false := by
          cases hq : pyEqZero ((dictGet kvs "level").getD (.vInt 0)) with
          | true => exact absurd hq hz
          | false => rfl
        cases hcop : dictGet kvs "cop" with
        | none =>
          rw [convert_rest_skip res kvs ts hf hcl (Or.inr (by rw [hcop]; rfl))]
          exact hmatf ln
        | some c =>
          by_cases hbl : pyStrBlank c = true
          · rw [convert_rest_skip res kvs ts hf hcl (Or.inr (by rw [hcop]; exact hbl))]
            exact hmatf ln
          · have hblf : pyStrBlank c = false := by
              cases hq : pyStrBlank c with
              | true => exact absurd hq hbl
              | false => rfl
            have hcr : convert_rest res kvs (some f) ts =
                RM.set (materialize res f ln) f
                  (((RM.find (materialize res f ln) f).getD {}).setL ln
                    ((((RM.find (materialize res f ln) f).getD {}).getL ln).getD [] ++
                      [mkEntry fn airports ((dictGet kvs "level").getD (.vInt 0))
                        (nextSectorsOf ts) c])) := by
              simp [convert_rest, hf, hcl, hzf, hcop, hblf]
            rw [hcr, hset, hmatf ln]

theorem skip_fold (S : String) (hS : S ≠ "") :
    ∀ (agrs : List PyVal) (res : ResultMap),
      (∀ agr ∈ agrs, recOK agr = true) →
      (∀ agr ∈ agrs, ∀ kvs : List (String × PyVal), agr = PyVal.vDict kvs →
        sector_from_string (dictGet kvs "from_sector") = .ok (some S) →
        pyEqZero ((dictGet kvs "level").getD (.vInt 0)) = true ∨
          copSkip (dictGet kvs "cop") = true) →
      ∃ r, agrs.foldlM convert_step res = .ok r ∧
        (∀ name, entriesOf r S name = entriesOf res S name) ∧
        (∀ ln, (((RM.find res S).getD {}).getL ln).isSome = true →
          (((RM.find r S).getD {}).getL ln).isSome = true) ∧
        (∀ agr ∈ agrs, ∀ (kvs : List (String × PyVal)) (ln fn : String) (a : PyVal),
          agr = PyVal.vDict kvs →
          sector_from_string (dictGet kvs "from_sector") = .ok (some S) →
          classify (dictGet kvs "ades") (dictGet kvs "adep") = some (ln, fn, a) →
          (((RM.find r S).getD {}).getL ln).isSome = true)
  | [], res, _, _ => ⟨res, rfl, fun _ => rfl, fun _ h => h, by simp⟩
  | a :: rest, res, hw, hskip => by
    have ha : recOK a = true := hw a (List.mem_cons_self ..)
    obtain ⟨kvs, hkvs⟩ : ∃ kvs, a = PyVal.vDict kvs := by
      cases a with
      | vDict kvs => exact ⟨kvs, rfl⟩
      | vStr s => simp [recOK] at ha
      | vInt n => simp [recOK] at ha
      | vBool b => simp [recOK] at ha
      | vList xs => simp [recOK] at ha
    subst hkvs
    simp only [recOK, Bool.and_eq_true] at ha
    obtain ⟨fs, hfs⟩ := sector_from_string_ok ha.1
    obtain ⟨ts, hts⟩ := sector_from_string_ok ha.2
    have hstep := convert_step_eq res kvs hfs hts
    have hSF : (∀ name, entriesOf (convert_rest res kvs fs ts) S name = entriesOf res S name) ∧
        (∀ ln, (((RM.find res S).getD {}).getL ln).isSome = true →
          (((RM.find (convert_rest res kvs fs ts) S).getD {}).getL ln).isSome = true) ∧
        (∀ (ln fn : String) (aa : PyVal),
          sector_from_string (dictGet kvs "from_sector") = .ok (some S) →
          classify (dictGet kvs "ades") (dictGet kvs "adep") = some (ln, fn, aa) →
          (((RM.find (convert_rest res kvs fs ts) S).getD {}).getL ln).isSome = true) := by
      cases fs with
      | none =>
        rw [convert_rest_none]
        refine ⟨fun _ => rfl, fun _ h => h, ?_⟩
        intro ln fn aa hfs2 hcl
        rw [hfs] at hfs2
        simp at hfs2
      | some f =>
        by_cases hfe : f = ""
        · subst hfe
          rw [convert_rest_blank]
          refine ⟨fun _ => rfl, fun _ h => h, ?_⟩
          intro ln fn aa hfs2 hcl
          rw [hfs] at hfs2
          have h2 : ("" : String) = S := by simpa using hfs2
          exact absurd h2.symm hS
        · by_cases hfS : f = S
          · subst hfS
            have hsk := hskip (PyVal.vDict kvs) (List.mem_cons_self ..) kvs rfl hfs
            cases hcl : classify (dictGet kvs "ades") (dictGet kvs "adep") with
            | none =>
              rw [convert_rest_noclass res kvs ts hfe hcl]
              refine ⟨fun _ => rfl, fun _ h => h, ?_⟩
              intro ln fn aa hfs2 hcl2
              exact Option.noConfusion hcl2
            | some tr =>
              obtain ⟨ln1, fn1, a1⟩ := tr
              have hln1 : ln1 = "destinationLoas" ∨ ln1 = "departureLoas" :=
                (classify_names hcl).imp (·.1) (·.1)
              rw [convert_rest_skip res kvs ts hfe hcl hsk]
              refine ⟨fun name => entriesOf_materialize res f ln1 hln1 f name, ?_, ?_⟩
              · intro ln hsome
                by_cases hll : ln = ln1
                · subst hll
                  rw [getL_materialize_self res f ln hln1]
                  rfl
                · rw [getL_materialize_other res f ln1 hll]
                  exact hsome
              · intro ln fn aa hfs2 hcl2
                have h := Option.some.inj hcl2
                have h1 : ln1 = ln := congrArg (·.1) h
                subst h1
                rw [getL_materialize_self res f ln1 hln1]
                rfl
          · have hfind : RM.find (convert_rest res kvs (some f) ts) S = RM.find res S :=
              find_convert_rest_other res kvs ts hfS
            refine ⟨?_, ?_, ?_⟩
            · intro name
              unfold entriesOf
              rw [hfind]
            · intro ln h
              rw [hfind]
              exact h
            · intro ln fn aa hfs2 hcl
              rw [hfs] at hfs2
              have h2 : f = S := by simpa using hfs2
              exact absurd h2 hfS
    obtain ⟨hSF1, hSF2, hSF3⟩ := hSF
    obtain ⟨r, hr, hEnt, hMono, hAll⟩ := skip_fold S hS rest (convert_rest res kvs fs ts)
      (fun agr hm => hw agr (List.mem_cons_of_mem _ hm))
      (fun agr hm => hskip agr (List.mem_cons_of_mem _ hm))
    refine ⟨r, ?_, ?_, ?_, ?_⟩
    · rw [List.foldlM_cons, hstep]
      exact hr
    · intro name
      rw [hEnt name, hSF1 name]
    · intro ln h
      exact hMono ln (hSF2 ln h)
    · intro agr hmem kvs2 ln fn aa hagr hfs2 hcl2
      rcases List.mem_cons.mp hmem with h | h
      · rw [h] at hagr
        injection hagr with hk
        subst hk
        exact hMono ln (hSF3 ln fn aa hfs2 hcl2)
      · exact hAll agr h kvs2 ln fn aa hagr hfs2 hcl2

/-! ## Claim theorems -/

/-- C5: sector code derivation takes the substring after the last `/`
of the sector string and upper-cases it; a missing (`None`) or empty
sector string yields null; `"ed/HAM"` maps to `"HAM"` and `"xx/lon"` to
`"LON"`. -/
theorem sector_code_spec :
    (∀ s : String, s ≠ "" →
      sector_from_string (some (.vStr s)) = .ok (some (pyUpper (afterLastSlash s)))) ∧
    sector_from_string none = .ok none ∧
    sector_from_string (some (.vStr "")) = .ok none ∧
    sector_from_string (some (.vStr "ed/HAM")) = .ok (some "HAM") ∧
    sector_from_string (some (.vStr "xx/lon")) = .ok (some "LON") := by
  refine ⟨?_, rfl, rfl, rfl, rfl⟩
  intro s hs
  have ht : truthy (.vStr s) = true := by simp [truthy, hs]
  simp [sector_from_string, ht, sectorCode_eq]

theorem sector_code_spec_witness :
    sector_from_string (some (.vStr "ab/cd")) = .ok (some (pyUpper (afterLastSlash "ab/cd"))) :=
  sector_code_spec.1 "ab/cd" (by decide)

/-- C10: a non-empty sector string containing no `/` derives as the
whole string upper-cased — a bare sector name is accepted, not rejected
or mapped to null. -/
theorem sector_code_no_slash (s : String) (hs : s ≠ "") (hns : '/' ∉ s.toList) :
    sector_from_string (some (.vStr s)) = .ok (some (pyUpper s)) := by
  have ht : truthy (.vStr s) = true := by simp [truthy, hs]
  have hsp : pySplit '/' s.toList = [s.toList] := pySplit_of_not_mem hns
  have hsc : sectorCode s = pyUpper s := by
    unfold sectorCode
    rw [hsp]
    rfl
  simp [sector_from_string, ht, hsc]

theorem sector_code_no_slash_witness :
    sector_from_string (some (.vStr "ham")) = .ok (some (pyUpper "ham")) :=
  sector_code_no_slash "ham" (by decide) (by decide)

/-- C8: a record whose `from_sector` is absent or the empty string
(derived sector code null) contributes nothing: the loop body returns
the result mapping exactly unchanged.  (The `to_sector` field must be
well-shaped, since the source computes it before testing
`from_sector`.) -/
theorem missing_from_sector_no_contribution (res : ResultMap) (kvs : List (String × PyVal))
    (ht : sfsOK (dictGet kvs "to_sector") = true)
    (hf : dictGet kvs "from_sector" = none ∨ dictGet kvs "from_sector" = some (.vStr "")) :
    convert_step res (.vDict kvs) = .ok res := by
  obtain ⟨ts, hts⟩ := sector_from_string_ok ht
  have hfs : sector_from_string (dictGet kvs "from_sector") = .ok none := by
    rcases hf with h | h <;> rw [h] <;> rfl
  rw [convert_step_eq res kvs hfs hts, convert_rest_none]

theorem missing_from_sector_witness :
    convert_step [] (.vDict [("to_sector", .vStr "ed/BRE"), ("ades", .vList [.vStr "EDDH"]),
      ("level", .vInt 80), ("cop", .vStr "ANKER")]) = .ok [] :=
  missing_from_sector_no_contribution [] _ (by decide) (Or.inl rfl)

/-- C4: for a record with `level == 0` (or `level` absent, defaulting
to 0), or with `cop` absent or blank after stripping, no routing entry
is produced, regardless of its other fields: all entry lists are
unchanged.  (The record must be well-shaped enough for the body to run:
a table with absent/falsy/string sector fields.) -/
theorem skip_rule_no_entry (res : ResultMap) (kvs : List (String × PyVal))
    (hw : recOK (.vDict kvs) = true)
    (hskip : pyEqZero ((dictGet kvs "level").getD (.vInt 0)) = true ∨
      copSkip (dictGet kvs "cop") = true) :
    stepPreserves res (.vDict kvs) := by
  simp only [recOK, Bool.and_eq_true] at hw
  obtain ⟨fs, hfs⟩ := sector_from_string_ok hw.1
  obtain ⟨ts, hts⟩ := sector_from_string_ok hw.2
  refine ⟨convert_rest res kvs fs ts, convert_step_eq res kvs hfs hts, ?_⟩
  intro s name
  cases fs with
  | none => rw [convert_rest_none]
  | some f =>
    by_cases hf : f = ""
    · subst hf
      rw [convert_rest_blank]
    · cases hcl : classify (dictGet kvs "ades") (dictGet kvs "adep") with
      | none => rw [convert_rest_noclass res kvs ts hf hcl]
      | some tr =>
        obtain ⟨ln, fn, airports⟩ := tr
        rw [convert_rest_skip res kvs ts hf hcl hskip]
        exact entriesOf_materialize res f ln ((classify_names hcl).imp (·.1) (·.1)) s name

theorem skip_rule_witness :
    stepPreserves [] (.vDict [("from_sector", .vStr "ed/HAM"),
      ("ades", .vList [.vStr "EDDH"]), ("level", .vInt 0), ("cop", .vStr "ANKER")]) :=
  skip_rule_no_entry [] _ (by decide) (Or.inl (by decide))

/-- C1 counterexample: a single agreement with a valid `from_sector`
and non-empty `ades`, discarded by the skip rule (`level: 0`), still
leaves sector `"HAM"` in the result, mapped to an object with an empty
`destinationLoas` list — the claim says the key would be absent
entirely and no empty object or list ever emitted. -/
theorem skip_no_trace_cex :
    convert_one [.vDict [("from_sector", .vStr "ed/HAM"), ("to_sector", .vStr "ed/BRE"),
      ("ades", .vList [.vStr "EDDH"]), ("level", .vInt 0), ("cop", .vStr "ANKER")]] =
      .ok [("HAM", ⟨some [], none⟩)] ∧
    (RM.find [("HAM", (⟨some [], none⟩ : SectorCfg))] "HAM").isSome = true :=
  ⟨rfl, rfl⟩

/-- C1 (amended): a record discarded before classification (null or
empty `from_sector` code, or neither `ades` nor `adep` truthy) leaves
no trace — the loop body returns the mapping exactly unchanged; but a
record reaching the skip rule has already materialised its sector key
and list key, so for every input all of whose records for a sector `S`
are discarded by the skip rule, the result holds no routing entry for
`S` under any list key, while each list key chosen by a classified
record for `S` is present on `S` holding the empty list (so `S` does
appear as a key). -/
theorem skip_materializes_empty :
    (∀ (res : ResultMap) (kvs : List (String × PyVal)) (fs ts : Option String),
      sector_from_string (dictGet kvs "from_sector") = .ok fs →
      sector_from_string (dictGet kvs "to_sector") = .ok ts →
      (fs = none ∨ fs = some "" ∨
        classify (dictGet kvs "ades") (dictGet kvs "adep") = none) →
      convert_step res (.vDict kvs) = .ok res) ∧
    (∀ (agrs : List PyVal) (S : String), S ≠ "" →
      (∀ agr ∈ agrs, recOK agr = true) →
      (∀ agr ∈ agrs, ∀ kvs : List (String × PyVal), agr = PyVal.vDict kvs →
        sector_from_string (dictGet kvs "from_sector") = .ok (some S) →
        pyEqZero ((dictGet kvs "level").getD (.vInt 0)) = true ∨
          copSkip (dictGet kvs "cop") = true) →
      skipTraceOK agrs S) := by
  constructor
  · intro res kvs fs ts hfs hts hdisc
    rw [convert_step_eq res kvs hfs hts]
    rcases hdisc with h | h | h
    · subst h
      rw [convert_rest_none]
    · subst h
      rw [convert_rest_blank]
    · cases fs with
      | none => rw [convert_rest_none]
      | some f =>
        by_cases hf : f = ""
        · subst hf
          rw [convert_rest_blank]
        · rw [convert_rest_noclass res kvs ts hf h]
  · intro agrs S hS hw hskip
    obtain ⟨r, hr, hEnt, _, hAll⟩ := skip_fold S hS agrs [] hw hskip
    have hnil : ∀ name, entriesOf ([] : ResultMap) S name = [] := by
      intro name
      unfold entriesOf
      simp [RM.find, alookup, getL_default]
    refine ⟨r, hr, fun name => (hEnt name).trans (hnil name), ?_⟩
    intro agr hmem kvs ln fn a hagr hfs hcl
    have hsome := hAll agr hmem kvs ln fn a hagr hfs hcl
    obtain ⟨xs, hxs⟩ := Option.isSome_iff_exists.mp hsome
    have hx : xs = [] := by
      have h2 := (hEnt ln).trans (hnil ln)
      unfold entriesOf at h2
      rw [hxs] at h2
      simpa using h2
    rw [hxs, hx]

theorem skip_materializes_empty_witness :
    convert_step [] (.vDict [("from_sector", .vStr ""), ("ades", .vList [.vStr "EDDH"]),
      ("level", .vInt 80), ("cop", .vStr "ANKER")]) = .ok [] ∧
    skipTraceOK
      [.vDict [("from_sector", .vStr "ed/HAM"), ("ades", .vList [.vStr "EDDH"]),
        ("level", .vInt 0), ("cop", .vStr "ANKER")],
       .vDict [("from_sector", .vStr "ed/HAM"), ("adep", .vList [.vStr "EDDF"]),
        ("level", .vInt 50)],
       .vDict [("from_sector", .vStr "ed/BRE"), ("ades", .vList [.vStr "EDDL"]),
        ("level", .vInt 70), ("cop", .vStr "OSN")]] "HAM" := by
  constructor
  · exact skip_materializes_empty.1 [] _ none none rfl rfl (Or.inl rfl)
  · refine skip_materializes_empty.2 _ "HAM" (by decide) (by decide) ?_
    intro agr hmem kvs hagr hfs
    simp only [List.mem_cons, List.not_mem_nil, or_false] at hmem
    rcases hmem with rfl | rfl | rfl
    · injection hagr with hk
      subst hk
      exact Or.inl (by decide)
    · injection hagr with hk
      subst hk
      exact Or.inr (by decide)
    · injection hagr with hk
      subst hk
      exact absurd (Except.ok.inj hfs) (by decide)

/-- C2 counterexample: a record with `to_sector: "ed/"` passes all
filters; its derived to-sector code is `""` — non-null — yet the
produced entry has `nextSectors = []`, not `[""]` as the claim's
"non-null" condition would require (Python truthiness also excludes the
empty string). -/
theorem entry_shape_cex :
    sector_from_string (some (.vStr "ed/")) = .ok (some "") ∧
    convert_one [.vDict [("from_sector", .vStr "ed/HAM"), ("to_sector", .vStr "ed/"),
      ("ades", .vList [.vStr "EDDH"]), ("level", .vInt 80), ("cop", .vStr "ANKER")]] =
      .ok [("HAM", ⟨some [⟨"destinations", .vList [.vStr "EDDH"], .vInt 80, [],
        .vStr "ANKER", [.vStr "ANKER"]⟩], none⟩)] ∧
    ([] : List String) ≠ [""] :=
  ⟨rfl, rfl, by decide⟩

/-- C2 (amended): a record passing all filters appends exactly the
entry `{field name: airports as given, xfl: level, nextSectors:
[to-sector code] when that code is non-null and non-empty else [],
copText: the raw cop, waypoints: [cop]}`, and changes nothing else; the
round-trip example produces sector `"HAM"` with the expected
single-entry `destinationLoas`. -/
theorem entry_shape_spec :
    (∀ (res : ResultMap) (kvs : List (String × PyVal)) (f : String) (ts : Option String)
        (ln fn : String) (airports c : PyVal),
      sector_from_string (dictGet kvs "from_sector") = .ok (some f) → f ≠ "" →
      sector_from_string (dictGet kvs "to_sector") = .ok ts →
      classify (dictGet kvs "ades") (dictGet kvs "adep") = some (ln, fn, airports) →
      pyEqZero ((dictGet kvs "level").getD (.vInt 0)) = false →
      dictGet kvs "cop" = some c →
      pyStrBlank c = false →
      stepAppends res (.vDict kvs) f ln
        (mkEntry fn airports ((dictGet kvs "level").getD (.vInt 0)) (nextSectorsOf ts) c)) ∧
    convert_one [.vDict [("from_sector", .vStr "ed/HAM"), ("to_sector", .vStr "ed/BRE"),
      ("ades", .vList [.vStr "EDDH"]), ("level", .vInt 80), ("cop", .vStr "ANKER")]] =
      .ok [("HAM", ⟨some [⟨"destinations", .vList [.vStr "EDDH"], .vInt 80, ["BRE"],
        .vStr "ANKER", [.vStr "ANKER"]⟩], none⟩)] := by
  constructor
  · intro res kvs f ts ln fn airports c hfs hf hts hcl hlvl hcop hblank
    exact ⟨convert_rest res kvs (some f) ts, convert_step_eq res kvs hfs hts,
      fun s name => entriesOf_convert_rest_pass res kvs hf hcl hlvl hcop hblank s name⟩
  · rfl

theorem entry_shape_witness :
    stepAppends [] (.vDict [("from_sector", .vStr "ed/HAM"), ("to_sector", .vStr "ed/BRE"),
      ("ades", .vList [.vStr "EDDH"]), ("level", .vInt 80), ("cop", .vStr "ANKER")])
      "HAM" "destinationLoas"
      (mkEntry "destinations" (.vList [.vStr "EDDH"])
        ((dictGet [("from_sector", .vStr "ed/HAM"), ("to_sector", .vStr "ed/BRE"),
          ("ades", .vList [.vStr "EDDH"]), ("level", .vInt 80), ("cop", .vStr "ANKER")]
          "level").getD (.vInt 0))
        (nextSectorsOf (some "BRE")) (.vStr "ANKER")) :=
  entry_shape_spec.1 [] _ "HAM" (some "BRE") "destinationLoas" "destinations" _ _
    rfl (by decide) rfl rfl rfl rfl rfl

/-- C6: with both `ades` and `adep` present and non-empty, `ades` takes
precedence: classification picks `destinationLoas` / `destinations`
carrying the `ades` list, `adep` is ignored, and (when the record also
passes the level/cop filter) the appended entry carries the `ades` list
under `destinations` while every `departureLoas` list is untouched. -/
theorem ades_precedence :
    (∀ (as ds : List PyVal), as ≠ [] → ds ≠ [] →
      classify (some (.vList as)) (some (.vList ds)) =
        some ("destinationLoas", "destinations", .vList as)) ∧
    (∀ (res : ResultMap) (kvs : List (String × PyVal)) (f : String) (ts : Option String)
        (as ds : List PyVal) (c : PyVal),
      dictGet kvs "ades" = some (.vList as) → as ≠ [] →
      dictGet kvs "adep" = some (.vList ds) → ds ≠ [] →
      sector_from_string (dictGet kvs "from_sector") = .ok (some f) → f ≠ "" →
      sector_from_string (dictGet kvs "to_sector") = .ok ts →
      pyEqZero ((dictGet kvs "level").getD (.vInt 0)) = false →
      dictGet kvs "cop" = some c → pyStrBlank c = false →
      stepAppends res (.vDict kvs) f "destinationLoas"
        (mkEntry "destinations" (.vList as) ((dictGet kvs "level").getD (.vInt 0))
          (nextSectorsOf ts) c)) := by
  have hcls : ∀ (as : List PyVal), as ≠ [] → ∀ (x : Option PyVal),
      classify (some (.vList as)) x =
        some ("destinationLoas", "destinations", .vList as) := by
    intro as ha x
    have ht : truthy (.vList as) = true := by simp [truthy, ha]
    simp [classify, ht]
  refine ⟨fun as ds ha _ => hcls as ha _, ?_⟩
  intro res kvs f ts as ds c hades ha hadep hd hfs hf hts hlvl hcop hblank
  have hcl : classify (dictGet kvs "ades") (dictGet kvs "adep") =
      some ("destinationLoas", "destinations", .vList as) := by
    rw [hades]
    exact hcls as ha _
  exact ⟨convert_rest res kvs (some f) ts, convert_step_eq res kvs hfs hts,
    fun s name => entriesOf_convert_rest_pass res kvs hf hcl hlvl hcop hblank s name⟩

theorem ades_precedence_witness :
    stepAppends [] (.vDict [("from_sector", .vStr "ed/HAM"), ("ades", .vList [.vStr "EDDH"]),
      ("adep", .vList [.vStr "EDDM"]), ("level", .vInt 80), ("cop", .vStr "ANKER")])
      "HAM" "destinationLoas"
      (mkEntry "destinations" (.vList [.vStr "EDDH"])
        ((dictGet [("from_sector", .vStr "ed/HAM"), ("ades", .vList [.vStr "EDDH"]),
          ("adep", .vList [.vStr "EDDM"]), ("level", .vInt 80), ("cop", .vStr "ANKER")]
          "level").getD (.vInt 0))
        (nextSectorsOf none) (.vStr "ANKER")) :=
  ades_precedence.2 [] _ "HAM" none [.vStr "EDDH"] [.vStr "EDDM"] (.vStr "ANKER")
    rfl (List.cons_ne_nil _ _) rfl (List.cons_ne_nil _ _) rfl (by decide) rfl rfl rfl rfl

/-- C7 counterexample: the converter does raise: a record whose
`from_sector` is a truthy non-string (the integer 42) makes
`sector_from_string` call `.split` on an int, an `AttributeError` that
aborts the whole conversion instead of discarding the record. -/
theorem never_raises_cex :
    convert_one [.vDict [("from_sector", .vInt 42)]] = .error "AttributeError: split" := rfl

theorem convert_foldlM_total : ∀ (agrs : List PyVal) (res : ResultMap),
    (∀ agr ∈ agrs, recOK agr = true) → ∃ r, agrs.foldlM convert_step res = .ok r
  | [], res, _ => ⟨res, rfl⟩
  | a :: rest, res, h => by
    have ha : recOK a = true := h a (List.mem_cons_self ..)
    obtain ⟨kvs, hkvs⟩ : ∃ kvs, a = PyVal.vDict kvs := by
      cases a with
      | vDict kvs => exact ⟨kvs, rfl⟩
      | vStr s => simp [recOK] at ha
      | vInt n => simp [recOK] at ha
      | vBool b => simp [recOK] at ha
      | vList xs => simp [recOK] at ha
    subst hkvs
    simp only [recOK, Bool.and_eq_true] at ha
    obtain ⟨fs, hfs⟩ := sector_from_string_ok ha.1
    obtain ⟨ts, hts⟩ := sector_from_string_ok ha.2
    have hstep := convert_step_eq res kvs hfs hts
    rw [List.foldlM_cons, hstep]
    exact convert_foldlM_total rest _ (fun agr hm => h agr (List.mem_cons_of_mem _ hm))

/-- C7 (amended): the converter raises no error on records that are
tables whose `from_sector` / `to_sector` fields are absent, falsy or
strings: all other malformed or missing fields only discard the record
or flow into the output; but a truthy non-string sector field (or a
non-table record) raises and fails the whole conversion. -/
theorem convert_total (agrs : List PyVal) (h : ∀ agr ∈ agrs, recOK agr = true) :
    convertOK agrs :=
  convert_foldlM_total agrs [] h

theorem convert_total_witness :
    convertOK [.vDict [("from_sector", .vStr "ed/HAM")],
      .vDict [("not_a_field", .vBool true)], .vDict [("from_sector", .vInt 0)]] :=
  convert_total _ (by decide)

/-! ## Heap lemmas for the `merge_results` frame property -/

theorem alookup_mem {α β : Type} [DecidableEq α] {l : List (α × β)} {s : α} {c : β}
    (h : alookup l s = some c) : (s, c) ∈ l := by
  induction l with
  | nil => simp [alookup] at h
  | cons q rest ih =>
    obtain ⟨k, v⟩ := q
    by_cases hk : k = s
    · subst hk
      rw [show alookup ((k, v) :: rest) k = some v by simp [alookup]] at h
      obtain rfl : v = c := by simpa using h
      exact List.mem_cons_self ..
    · rw [show alookup ((k, v) :: rest) s = alookup rest s by simp [alookup, hk]] at h
      exact List.mem_cons_of_mem _ (ih h)

theorem mem_aset {α β : Type} [DecidableEq α] {l : List (α × β)} {s : α} {c : β}
    {p : α × β} (hp : p ∈ aset l s c) : p = (s, c) ∨ p ∈ l := by
  induction l with
  | nil =>
    simp [aset] at hp
    exact Or.inl hp
  | cons q rest ih =>
    obtain ⟨k, v⟩ := q
    by_cases hk : k = s
    · rw [show aset ((k, v) :: rest) s c = (s, c) :: rest by simp [aset, hk]] at hp
      rcases List.mem_cons.mp hp with h | h
      · exact Or.inl h
      · exact Or.inr (List.mem_cons_of_mem _ h)
    · rw [show aset ((k, v) :: rest) s c = (k, v) :: aset rest s c by simp [aset, hk]] at hp
      rcases List.mem_cons.mp hp with h | h
      · exact Or.inr (h ▸ List.mem_cons_self ..)
      · rcases ih h with h2 | h2
        · exact Or.inl h2
        · exact Or.inr (List.mem_cons_of_mem _ h2)

theorem aset_snd_mem {α β : Type} [DecidableEq α] {l : List (α × β)} {s : α} {c : β}
    {y : β} (hy : y ∈ (aset l s c).map Prod.snd) : y = c ∨ y ∈ l.map Prod.snd := by
  obtain ⟨p, hp, hpy⟩ := List.mem_map.mp hy
  rcases mem_aset hp with h | h
  · exact Or.inl (hpy ▸ h ▸ rfl)
  · exact Or.inr (List.mem_map.mpr ⟨p, h, hpy⟩)

theorem hfind_hset_self (h : Heap) (a : Addr) (o : HObj) : hfind (hset h a o) a = some o :=
  alookup_aset_self ..

theorem hfind_hset_ne (h : Heap) {x a : Addr} (o : HObj) (hx : x ≠ a) :
    hfind (hset h a o) x = hfind h x :=
  alookup_aset_ne h o hx

theorem hfind_lt {h : Heap} {f x : Addr} {o : HObj} (hb : heapBounded h f)
    (hx : hfind h x = some o) : x < f ∧ ∀ y ∈ addrsOf o, y < f :=
  hb (x, o) (alookup_mem hx)

theorem hfind_none_of_le {h : Heap} {f x : Addr} (hb : heapBounded h f) (hx : f ≤ x) :
    hfind h x = none := by
  cases ho : hfind h x with
  | none => rfl
  | some o =>
    exact absurd (hfind_lt hb ho).1 (not_lt.mpr hx)

theorem heapBounded_mono {h : Heap} {f f' : Addr} (hb : heapBounded h f) (hf : f ≤ f') :
    heapBounded h f' := by
  intro p hp
  obtain ⟨h1, h2⟩ := hb p hp
  exact ⟨lt_of_lt_of_le h1 hf, fun y hy => lt_of_lt_of_le (h2 y hy) hf⟩

theorem heapBounded_hset {h : Heap} {f a : Addr} {o : HObj} (hb : heapBounded h f)
    (ha : a < f) (ho : ∀ y ∈ addrsOf o, y < f) : heapBounded (hset h a o) f := by
  intro p hp
  rcases mem_aset hp with hpe | hpe
  · subst hpe
    exact ⟨ha, ho⟩
  · exact hb p hpe

/-- The key-value pairs of the dict object at `x`, if `x` holds a dict. -/
def dictCell (h : Heap) (x : Addr) : Option (List (String × Addr)) :=
  match hfind h x with
  | some (.hDict kvs) => some kvs
  | _ => none

theorem dictCell_congr {h h' : Heap} {x : Addr} (he : hfind h' x = hfind h x) :
    dictCell h' x = dictCell h x := by
  unfold dictCell
  rw [he]

theorem dictRange_eq_cell (h : Heap) (a : Addr) :
    dictRange h a = ((dictCell h a).getD []).map Prod.snd := by
  unfold dictRange dictCell
  cases ho : hfind h a with
  | none => rfl
  | some o => cases o <;> rfl

theorem dictRange_congr {h h' : Heap} {a : Addr} (he : hfind h' a = hfind h a) :
    dictRange h' a = dictRange h a := by
  rw [dictRange_eq_cell, dictRange_eq_cell, dictCell_congr he]

theorem dictRange_lt {h : Heap} {f : Addr} (hb : heapBounded h f) (a : Addr) :
    ∀ x ∈ dictRange h a, x < f := by
  intro x hx
  unfold dictRange at hx
  cases ho : hfind h a with
  | none => rw [ho] at hx; simp at hx
  | some o =>
    rw [ho] at hx
    cases o with
    | hDict kvs => exact (hfind_lt hb ho).2 x (by simpa [addrsOf] using hx)
    | hList es => simp at hx
    | hEntry e => simp at hx

theorem listRange_lt {h : Heap} {f : Addr} (hb : heapBounded h f) (a : Addr) :
    ∀ x ∈ listRange h a, x < f := by
  intro x hx
  unfold listRange at hx
  cases ho : hfind h a with
  | none => rw [ho] at hx; simp at hx
  | some o =>
    rw [ho] at hx
    cases o with
    | hDict kvs => simp at hx
    | hList es => exact (hfind_lt hb ho).2 x (by simpa [addrsOf] using hx)
    | hEntry e => simp at hx

theorem skel_lt {h : Heap} {f a : Addr} (hb : heapBounded h f) (ha : a < f) :
    ∀ x ∈ skel h a, x < f := by
  intro x hx
  rcases List.mem_cons.mp hx with h1 | h1
  · exact h1 ▸ ha
  · rcases List.mem_append.mp h1 with h2 | h2
    · exact dictRange_lt hb a x h2
    · obtain ⟨y, _, hy2⟩ := List.mem_flatMap.mp h2
      exact dictRange_lt hb y x hy2

theorem reachAll_lt {h : Heap} {f a : Addr} (hb : heapBounded h f) (ha : a < f) :
    ∀ x ∈ reachAll h a, x < f := by
  intro x hx
  rcases List.mem_append.mp hx with h1 | h1
  · exact skel_lt hb ha x h1
  · obtain ⟨y, _, hy2⟩ := List.mem_flatMap.mp h1
    exact listRange_lt hb y x hy2

theorem mergeKey_tail {st0 : MState} {h1 : Heap} {f1 : Addr} {st' : MState}
    {tsa ala : Addr} {key : String} {tKvs1 : List (String × Addr)}
    (hb1 : heapBounded h1 f1)
    (hG : hfind h1 tsa = some (.hDict tKvs1))
    (hA : st0.fresh ≤ f1)
    (hC : ∀ x, x < st0.fresh → x ≠ tsa → hfind h1 x = hfind st0.heap x)
    (hD : ∀ x ∈ dictRange h1 tsa, x ∈ dictRange st0.heap tsa ∨ st0.fresh ≤ x)
    (hF : ∀ x, st0.fresh ≤ x → dictCell h1 x = none)
    (hrun : (match alookup tKvs1 key with
      | some tla =>
        match hfind h1 tla, hfind h1 ala with
        | some (.hList tl), some (.hList al) =>
          some ({ heap := hset h1 tla (.hList (tl ++ al)), fresh := f1 } : MState)
        | _, _ => none
      | none => none) = some st') :
    st0.fresh ≤ st'.fresh ∧ heapBounded st'.heap st'.fresh ∧
    (∀ x, x < st0.fresh → x ≠ tsa → x ∉ dictRange st0.heap tsa →
      hfind st'.heap x = hfind st0.heap x) ∧
    (∀ x ∈ dictRange st'.heap tsa, x ∈ dictRange st0.heap tsa ∨ st0.fresh ≤ x) ∧
    (∀ x, x < st0.fresh → x ≠ tsa → dictCell st'.heap x = dictCell st0.heap x) ∧
    (∀ x, st0.fresh ≤ x → dictCell st'.heap x = none) := by
  cases hlk : alookup tKvs1 key with
  | none => simp [hlk] at hrun
  | some tla =>
  cases htl : hfind h1 tla with
  | none => simp [hlk, htl] at hrun
  | some tlo =>
  cases tlo with
  | hDict kvs2 => simp [hlk, htl] at hrun
  | hEntry e => simp [hlk, htl] at hrun
  | hList tl =>
  cases hal : hfind h1 ala with
  | none => simp [hlk, htl, hal] at hrun
  | some alo =>
  cases alo with
  | hDict kvs2 => simp [hlk, htl, hal] at hrun
  | hEntry e => simp [hlk, htl, hal] at hrun
  | hList al =>
  simp only [hlk, htl, hal, Option.some_inj] at hrun
  subst hrun
  have tla_lt : tla < f1 := (hfind_lt hb1 htl).1
  have tl_lt : ∀ y ∈ tl, y < f1 := fun y hy =>
    (hfind_lt hb1 htl).2 y (by simpa [addrsOf] using hy)
  have al_lt : ∀ y ∈ al, y < f1 := fun y hy =>
    (hfind_lt hb1 hal).2 y (by simpa [addrsOf] using hy)
  have tla_ne_tsa : tla ≠ tsa := by
    intro he
    rw [he, hG] at htl
    simp at htl
  have tla_mem : tla ∈ dictRange h1 tsa := by
    unfold dictRange
    rw [hG]
    exact List.mem_map.mpr ⟨(key, tla), alookup_mem hlk, rfl⟩
  have frame1 : ∀ x, x ≠ tla →
      hfind (hset h1 tla (.hList (tl ++ al))) x = hfind h1 x :=
    fun x hx => hfind_hset_ne _ _ hx
  refine ⟨hA, ?_, ?_, ?_, ?_, ?_⟩
  · exact heapBounded_hset hb1 tla_lt (fun y hy => by
      rcases List.mem_append.mp (by simpa [addrsOf] using hy) with h2 | h2
      · exact tl_lt y h2
      · exact al_lt y h2)
  · intro x hx hxt hxr
    have hxla : x ≠ tla := by
      intro he
      subst he
      rcases hD x tla_mem with h2 | h2
      · exact hxr h2
      · exact absurd hx (not_lt.mpr h2)
    show hfind (hset h1 tla (.hList (tl ++ al))) x = hfind st0.heap x
    rw [frame1 x hxla, hC x hx hxt]
  · intro x hx
    have he : hfind (hset h1 tla (.hList (tl ++ al))) tsa = hfind h1 tsa :=
      frame1 tsa (Ne.symm tla_ne_tsa)
    rw [show dictRange ({ heap := hset h1 tla (.hList (tl ++ al)), fresh := f1} :
        MState).heap tsa = dictRange h1 tsa from dictRange_congr he] at hx
    exact hD x hx
  · intro x hx hxt
    by_cases hxla : x = tla
    · subst hxla
      have h2 : dictCell (hset h1 x (.hList (tl ++ al))) x = none := by
        unfold dictCell
        rw [hfind_hset_self]
      have h3 : dictCell st0.heap x = none := by
        unfold dictCell
        rw [← hC x hx hxt, htl]
      exact h2.trans h3.symm
    · show dictCell (hset h1 tla (.hList (tl ++ al))) x = dictCell st0.heap x
      rw [dictCell_congr (frame1 x hxla), dictCell_congr (hC x hx hxt)]
  · intro x hx
    by_cases hxla : x = tla
    · subst hxla
      show dictCell (hset h1 x (.hList (tl ++ al))) x = none
      unfold dictCell
      rw [hfind_hset_self]
    · show dictCell (hset h1 tla (.hList (tl ++ al))) x = none
      rw [dictCell_congr (frame1 x hxla)]
      exact hF x hx

theorem mergeKey_frame {st st' : MState} {tsa sca : Addr} {key : String}
    (hb : heapBounded st.heap st.fresh) (htsa : tsa < st.fresh)
    (hrun : mergeKey st tsa sca key = some st') :
    st.fresh ≤ st'.fresh ∧
    heapBounded st'.heap st'.fresh ∧
    (∀ x, x < st.fresh → x ≠ tsa → x ∉ dictRange st.heap tsa →
      hfind st'.heap x = hfind st.heap x) ∧
    (∀ x ∈ dictRange st'.heap tsa, x ∈ dictRange st.heap tsa ∨ st.fresh ≤ x) ∧
    (∀ x, x < st.fresh → x ≠ tsa → dictCell st'.heap x = dictCell st.heap x) ∧
    (∀ x, st.fresh ≤ x → dictCell st'.heap x = none) := by
  have hFtriv : ∀ x, st.fresh ≤ x → dictCell st.heap x = none := by
    intro x hx
    unfold dictCell
    rw [hfind_none_of_le hb hx]
  unfold mergeKey at hrun
  cases hsca : hfind st.heap sca with
  | none => simp [hsca] at hrun
  | some so =>
  cases so with
  | hList es => simp [hsca] at hrun
  | hEntry e => simp [hsca] at hrun
  | hDict sKvs =>
  cases hala : alookup sKvs key with
  | none =>
    simp only [hsca, hala, Option.some_inj] at hrun
    subst hrun
    exact ⟨le_refl _, hb, fun x _ _ _ => rfl, fun x hx => Or.inl hx, fun x _ _ => rfl, hFtriv⟩
  | some ala =>
  cases htobj : hfind st.heap tsa with
  | none => simp [hsca, hala, htobj] at hrun
  | some tobj =>
  cases tobj with
  | hList es => simp [hsca, hala, htobj] at hrun
  | hEntry e => simp [hsca, hala, htobj] at hrun
  | hDict tKvs =>
  have htKvs_lt : ∀ y ∈ tKvs.map Prod.snd, y < st.fresh := by
    intro y hy
    exact (hfind_lt hb htobj).2 y (by simpa [addrsOf] using hy)
  cases halk : alookup tKvs key with
  | some old =>
    simp only [hsca, hala, htobj, halk] at hrun
    have hrun2 : (match alookup tKvs key with
      | some tla =>
        match hfind st.heap tla, hfind st.heap ala with
        | some (.hList tl), some (.hList al) =>
          some ({ heap := hset st.heap tla (.hList (tl ++ al)), fresh := st.fresh } : MState)
        | _, _ => none
      | none => none) = some st' := by
      rw [halk]
      exact hrun
    exact mergeKey_tail hb htobj (le_refl _) (fun x _ _ => rfl) (fun x hx => Or.inl hx)
      hFtriv hrun2
  | none =>
    simp only [hsca, hala, htobj, halk] at hrun
    have hb1 : heapBounded
        (hset (hset st.heap st.fresh (.hList [])) tsa (.hDict (aset tKvs key st.fresh)))
        (st.fresh + 1) := by
      refine heapBounded_hset
        (heapBounded_hset (heapBounded_mono hb (Nat.le_succ _)) (Nat.lt_succ_self _)
          (by simp [addrsOf]))
        (Nat.lt_succ_of_lt htsa) ?_
      intro y hy
      rcases aset_snd_mem (by simpa [addrsOf] using hy) with h2 | h2
      · exact h2 ▸ Nat.lt_succ_self _
      · exact Nat.lt_succ_of_lt (htKvs_lt y h2)
    have hG : hfind (hset (hset st.heap st.fresh (.hList [])) tsa
        (.hDict (aset tKvs key st.fresh))) tsa = some (.hDict (aset tKvs key st.fresh)) :=
      hfind_hset_self ..
    have hC : ∀ x, x < st.fresh → x ≠ tsa →
        hfind (hset (hset st.heap st.fresh (.hList [])) tsa
          (.hDict (aset tKvs key st.fresh))) x = hfind st.heap x := by
      intro x hx hxt
      rw [hfind_hset_ne _ _ hxt, hfind_hset_ne _ _ (Nat.ne_of_lt hx)]
    have hD : ∀ x ∈ dictRange (hset (hset st.heap st.fresh (.hList [])) tsa
        (.hDict (aset tKvs key st.fresh))) tsa,
        x ∈ dictRange st.heap tsa ∨ st.fresh ≤ x := by
      intro x hx
      rw [show dictRange (hset (hset st.heap st.fresh (.hList [])) tsa
          (.hDict (aset tKvs key st.fresh))) tsa = (aset tKvs key st.fresh).map Prod.snd by
        unfold dictRange; rw [hG]] at hx
      rcases aset_snd_mem hx with h2 | h2
      · exact Or.inr (h2 ▸ le_refl _)
      · refine Or.inl ?_
        unfold dictRange
        rw [htobj]
        exact h2
    have hF : ∀ x, st.fresh ≤ x →
        dictCell (hset (hset st.heap st.fresh (.hList [])) tsa
          (.hDict (aset tKvs key st.fresh))) x = none := by
      intro x hx
      by_cases hxf : x = st.fresh
      · have h2 : hfind (hset (hset st.heap st.fresh (.hList [])) tsa
            (.hDict (aset tKvs key st.fresh))) x = some (.hList []) := by
          rw [hxf, hfind_hset_ne _ _ (Ne.symm (Nat.ne_of_lt htsa)), hfind_hset_self]
        unfold dictCell
        rw [h2]
      · have hxt : x ≠ tsa := fun he => absurd (he ▸ hx) (not_le.mpr htsa)
        have h2 : hfind (hset (hset st.heap st.fresh (.hList [])) tsa
            (.hDict (aset tKvs key st.fresh))) x = none := by
          rw [hfind_hset_ne _ _ hxt, hfind_hset_ne _ _ hxf]
          exact hfind_none_of_le hb hx
        unfold dictCell
        rw [h2]
    simp only [hG] at hrun
    exact mergeKey_tail hb1 hG (Nat.le_succ _) hC hD hF hrun

theorem mem_skel_head (h : Heap) (a : Addr) : a ∈ skel h a := List.mem_cons_self ..

theorem mem_skel_of_range {h : Heap} {a x : Addr} (hx : x ∈ dictRange h a) : x ∈ skel h a :=
  List.mem_cons_of_mem _ (List.mem_append.mpr (Or.inl hx))

theorem mem_skel_of_range2 {h : Heap} {a sa x : Addr} (hsa : sa ∈ dictRange h a)
    (hx : x ∈ dictRange h sa) : x ∈ skel h a :=
  List.mem_cons_of_mem _ (List.mem_append.mpr (Or.inr (List.mem_flatMap.mpr ⟨sa, hsa, hx⟩)))

theorem mem_skel_elim {h : Heap} {a x : Addr} (hx : x ∈ skel h a) :
    x = a ∨ x ∈ dictRange h a ∨ ∃ sa ∈ dictRange h a, x ∈ dictRange h sa := by
  rcases List.mem_cons.mp hx with h1 | h1
  · exact Or.inl h1
  · rcases List.mem_append.mp h1 with h2 | h2
    · exact Or.inr (Or.inl h2)
    · obtain ⟨sa, hsa, hx2⟩ := List.mem_flatMap.mp h2
      exact Or.inr (Or.inr ⟨sa, hsa, hx2⟩)

theorem mergeSector_tail {st0 : MState} {h1 : Heap} {f1 : Addr} {st' : MState}
    {tgtAddr : Addr} {p : String × Addr} {tKvs1 : List (String × Addr)}
    (hb0 : heapBounded st0.heap st0.fresh)
    (hb1 : heapBounded h1 f1)
    (hA : st0.fresh ≤ f1)
    (hG : hfind h1 tgtAddr = some (.hDict tKvs1))
    (hC1 : ∀ x, x < st0.fresh → x ≠ tgtAddr → hfind h1 x = hfind st0.heap x)
    (hRange1 : ∀ x ∈ dictRange h1 tgtAddr, x ∈ dictRange st0.heap tgtAddr ∨ st0.fresh ≤ x)
    (hCell1 : ∀ x, x < st0.fresh → x ≠ tgtAddr → dictCell h1 x = dictCell st0.heap x)
    (hHigh1 : ∀ x, st0.fresh ≤ x → dictRange h1 x = [])
    (hrun : (match alookup tKvs1 p.1 with
      | some tsa =>
        match mergeKey ⟨h1, f1⟩ tsa p.2 "destinationLoas" with
        | some st2 => mergeKey st2 tsa p.2 "departureLoas"
        | none => none
      | none => none) = some st') :
    st0.fresh ≤ st'.fresh ∧ heapBounded st'.heap st'.fresh ∧
    (∀ x, x < st0.fresh → x ∉ skel st0.heap tgtAddr → hfind st'.heap x = hfind st0.heap x) ∧
    (∀ x ∈ skel st'.heap tgtAddr, x ∈ skel st0.heap tgtAddr ∨ st0.fresh ≤ x) := by
  cases hlk : alookup tKvs1 p.1 with
  | none => simp [hlk] at hrun
  | some tsa =>
  simp only [hlk] at hrun
  cases hk1 : mergeKey ⟨h1, f1⟩ tsa p.2 "destinationLoas" with
  | none => simp [hk1] at hrun
  | some st2 =>
  simp only [hk1] at hrun
  have htgt_lt : tgtAddr < f1 := (hfind_lt hb1 hG).1
  have htsa_mem0 : tsa ∈ tKvs1.map Prod.snd :=
    List.mem_map.mpr ⟨(p.1, tsa), alookup_mem hlk, rfl⟩
  have htsa_mem : tsa ∈ dictRange h1 tgtAddr := by
    unfold dictRange
    rw [hG]
    exact htsa_mem0
  have htsa_lt : tsa < f1 := (hfind_lt hb1 hG).2 tsa htsa_mem0
  obtain ⟨hM1, hM2, hM3, hM4, hM5, hM6⟩ := mergeKey_frame hb1 htsa_lt hk1
  have htsa_lt2 : tsa < st2.fresh := lt_of_lt_of_le htsa_lt hM1
  obtain ⟨hN1, hN2, hN3, hN4, hN5, hN6⟩ := mergeKey_frame hM2 htsa_lt2 hrun
  have hRangeComp : ∀ x ∈ dictRange st'.heap tsa, x ∈ dictRange h1 tsa ∨ f1 ≤ x := by
    intro x hx
    rcases hN4 x hx with h2 | h2
    · rcases hM4 x h2 with h3 | h3
      · exact Or.inl h3
      · exact Or.inr h3
    · exact Or.inr (le_trans hM1 h2)
  have hCellComp : ∀ x, x < f1 → x ≠ tsa → dictCell st'.heap x = dictCell h1 x := by
    intro x hx hxt
    rw [hN5 x (lt_of_lt_of_le hx hM1) hxt]
    exact hM5 x hx hxt
  have hHighComp : ∀ x, f1 ≤ x → dictRange st'.heap x = [] := by
    intro x hx
    by_cases hx2 : x < st2.fresh
    · by_cases hxt : x = tsa
      · exact absurd hx (not_le.mpr (hxt ▸ htsa_lt))
      · rw [dictRange_eq_cell, hN5 x hx2 hxt, hM6 x hx]
        rfl
    · rw [dictRange_eq_cell, hN6 x (le_of_not_lt hx2)]
      rfl
  have hRange' : ∀ x ∈ dictRange st'.heap tgtAddr,
      x ∈ dictRange st0.heap tgtAddr ∨ st0.fresh ≤ x := by
    by_cases het : tsa = tgtAddr
    · intro x hx
      rw [← het] at hx
      rcases hRangeComp x hx with h2 | h2
      · exact hRange1 x (by rw [← het]; exact h2)
      · exact Or.inr (le_trans hA h2)
    · intro x hx
      have hc : dictCell st'.heap tgtAddr = dictCell h1 tgtAddr :=
        hCellComp tgtAddr htgt_lt (fun he => het he.symm)
      rw [dictRange_eq_cell, hc, ← dictRange_eq_cell] at hx
      exact hRange1 x hx
  have hdr1 : ∀ sa ∈ dictRange st0.heap tgtAddr, ∀ x ∈ dictRange h1 sa,
      x ∈ skel st0.heap tgtAddr ∨ st0.fresh ≤ x := by
    intro sa hsa x hx
    by_cases het : sa = tgtAddr
    · rw [het] at hx
      rcases hRange1 x hx with h2 | h2
      · exact Or.inl (mem_skel_of_range h2)
      · exact Or.inr h2
    · have hsa_lt0 : sa < st0.fresh := dictRange_lt hb0 tgtAddr sa hsa
      rw [dictRange_eq_cell, hCell1 sa hsa_lt0 het, ← dictRange_eq_cell] at hx
      exact Or.inl (mem_skel_of_range2 hsa hx)
  have hdr' : ∀ sa ∈ dictRange st0.heap tgtAddr, ∀ x ∈ dictRange st'.heap sa,
      x ∈ skel st0.heap tgtAddr ∨ st0.fresh ≤ x := by
    intro sa hsa x hx
    have hsa_lt0 : sa < st0.fresh := dictRange_lt hb0 tgtAddr sa hsa
    by_cases hst : sa = tsa
    · rcases hRangeComp x (by rw [← hst]; exact hx) with h2 | h2
      · exact hdr1 sa hsa x (by rw [hst]; exact h2)
      · exact Or.inr (le_trans hA h2)
    · rw [dictRange_eq_cell, hCellComp sa (lt_of_lt_of_le hsa_lt0 hA) hst,
        ← dictRange_eq_cell] at hx
      exact hdr1 sa hsa x hx
  have hdrF : ∀ sa, st0.fresh ≤ sa → ∀ x ∈ dictRange st'.heap sa,
      x ∈ skel st0.heap tgtAddr ∨ st0.fresh ≤ x := by
    intro sa hsa x hx
    by_cases hsf : f1 ≤ sa
    · rw [hHighComp sa hsf] at hx
      simp at hx
    · by_cases hst : sa = tsa
      · rcases hRangeComp x (by rw [← hst]; exact hx) with h2 | h2
        · rw [← hst, hHigh1 sa hsa] at h2
          simp at h2
        · exact Or.inr (le_trans hA h2)
      · rw [dictRange_eq_cell, hCellComp sa (lt_of_not_le hsf) hst,
          ← dictRange_eq_cell, hHigh1 sa hsa] at hx
        simp at hx
  refine ⟨le_trans hA (le_trans hM1 hN1), hN2, ?_, ?_⟩
  · intro x hx hsk
    have hxt : x ≠ tgtAddr := fun he => hsk (he ▸ mem_skel_head ..)
    have hxs : x ≠ tsa := by
      intro he
      rcases hRange1 tsa htsa_mem with h2 | h2
      · refine hsk ?_
        rw [he]
        exact mem_skel_of_range h2
      · rw [he] at hx
        exact absurd hx (not_lt.mpr h2)
    have hxr : x ∉ dictRange h1 tsa := by
      intro hmem
      rcases hRange1 tsa htsa_mem with h2 | h2
      · by_cases het : tsa = tgtAddr
        · rw [het] at hmem
          rcases hRange1 x hmem with h3 | h3
          · exact hsk (mem_skel_of_range h3)
          · exact absurd hx (not_lt.mpr h3)
        · have htsa_lt0 : tsa < st0.fresh := dictRange_lt hb0 tgtAddr tsa h2
          rw [dictRange_eq_cell, hCell1 tsa htsa_lt0 het, ← dictRange_eq_cell] at hmem
          exact hsk (mem_skel_of_range2 h2 hmem)
      · rw [hHigh1 tsa h2] at hmem
        simp at hmem
    have e1 : hfind st2.heap x = hfind h1 x := hM3 x (lt_of_lt_of_le hx hA) hxs hxr
    have h4 : x ∉ dictRange st2.heap tsa := by
      intro hmem
      rcases hM4 x hmem with h5 | h5
      · exact hxr h5
      · exact absurd (lt_of_lt_of_le hx hA) (not_lt.mpr h5)
    have e2 : hfind st'.heap x = hfind st2.heap x :=
      hN3 x (lt_of_lt_of_le (lt_of_lt_of_le hx hA) hM1) hxs h4
    rw [e2, e1]
    exact hC1 x hx hxt
  · intro x hx
    rcases mem_skel_elim hx with h1 | h1 | ⟨sa, hsa, hx2⟩
    · exact Or.inl (h1 ▸ mem_skel_head ..)
    · rcases hRange' x h1 with h2 | h2
      · exact Or.inl (mem_skel_of_range h2)
      · exact Or.inr h2
    · rcases hRange' sa hsa with h2 | h2
      · exact hdr' sa h2 x hx2
      · exact hdrF sa h2 x hx2

theorem mergeSector_frame {tgtAddr : Addr} {st st' : MState} {p : String × Addr}
    (hb : heapBounded st.heap st.fresh)
    (hrun : mergeSector tgtAddr st p = some st') :
    st.fresh ≤ st'.fresh ∧
    heapBounded st'.heap st'.fresh ∧
    (∀ x, x < st.fresh → x ∉ skel st.heap tgtAddr → hfind st'.heap x = hfind st.heap x) ∧
    (∀ x ∈ skel st'.heap tgtAddr, x ∈ skel st.heap tgtAddr ∨ st.fresh ≤ x) := by
  unfold mergeSector at hrun
  cases htgt : hfind st.heap tgtAddr with
  | none => simp [htgt] at hrun
  | some tobj =>
  cases tobj with
  | hList es => simp [htgt] at hrun
  | hEntry e => simp [htgt] at hrun
  | hDict tKvs =>
  have htgt_lt : tgtAddr < st.fresh := (hfind_lt hb htgt).1
  have htKvs_lt : ∀ y ∈ tKvs.map Prod.snd, y < st.fresh := by
    intro y hy
    exact (hfind_lt hb htgt).2 y (by simpa [addrsOf] using hy)
  have hHigh0 : ∀ x, st.fresh ≤ x → dictRange st.heap x = [] := by
    intro x hx
    unfold dictRange
    rw [hfind_none_of_le hb hx]
  cases halk : alookup tKvs p.1 with
  | some old =>
    simp only [htgt, halk] at hrun
    have hrun2 : (match alookup tKvs p.1 with
      | some tsa =>
        match mergeKey ⟨st.heap, st.fresh⟩ tsa p.2 "destinationLoas" with
        | some st2 => mergeKey st2 tsa p.2 "departureLoas"
        | none => none
      | none => none) = some st' := by
      rw [halk]
      exact hrun
    exact mergeSector_tail hb hb (le_refl _) htgt (fun x _ _ => rfl)
      (fun x hx => Or.inl hx) (fun x _ _ => rfl) hHigh0 hrun2
  | none =>
    simp only [htgt, halk] at hrun
    have hb1 : heapBounded
        (hset (hset st.heap st.fresh (.hDict [])) tgtAddr (.hDict (aset tKvs p.1 st.fresh)))
        (st.fresh + 1) := by
      refine heapBounded_hset
        (heapBounded_hset (heapBounded_mono hb (Nat.le_succ _)) (Nat.lt_succ_self _)
          (by simp [addrsOf]))
        (Nat.lt_succ_of_lt htgt_lt) ?_
      intro y hy
      rcases aset_snd_mem (by simpa [addrsOf] using hy) with h2 | h2
      · exact h2 ▸ Nat.lt_succ_self _
      · exact Nat.lt_succ_of_lt (htKvs_lt y h2)
    have hG : hfind (hset (hset st.heap st.fresh (.hDict [])) tgtAddr
        (.hDict (aset tKvs p.1 st.fresh))) tgtAddr =
        some (.hDict (aset tKvs p.1 st.fresh)) := hfind_hset_self ..
    have hC1 : ∀ x, x < st.fresh → x ≠ tgtAddr →
        hfind (hset (hset st.heap st.fresh (.hDict [])) tgtAddr
          (.hDict (aset tKvs p.1 st.fresh))) x = hfind st.heap x := by
      intro x hx hxt
      rw [hfind_hset_ne _ _ hxt, hfind_hset_ne _ _ (Nat.ne_of_lt hx)]
    have hRange1 : ∀ x ∈ dictRange (hset (hset st.heap st.fresh (.hDict [])) tgtAddr
        (.hDict (aset tKvs p.1 st.fresh))) tgtAddr,
        x ∈ dictRange st.heap tgtAddr ∨ st.fresh ≤ x := by
      intro x hx
      rw [show dictRange (hset (hset st.heap st.fresh (.hDict [])) tgtAddr
          (.hDict (aset tKvs p.1 st.fresh))) tgtAddr =
          (aset tKvs p.1 st.fresh).map Prod.snd by
        unfold dictRange; rw [hG]] at hx
      rcases aset_snd_mem hx with h2 | h2
      · exact Or.inr (h2 ▸ le_refl _)
      · refine Or.inl ?_
        unfold dictRange
        rw [htgt]
        exact h2
    have hCell1 : ∀ x, x < st.fresh → x ≠ tgtAddr →
        dictCell (hset (hset st.heap st.fresh (.hDict [])) tgtAddr
          (.hDict (aset tKvs p.1 st.fresh))) x = dictCell st.heap x :=
      fun x hx hxt => dictCell_congr (hC1 x hx hxt)
    have hHigh1 : ∀ x, st.fresh ≤ x →
        dictRange (hset (hset st.heap st.fresh (.hDict [])) tgtAddr
          (.hDict (aset tKvs p.1 st.fresh))) x = [] := by
      intro x hx
      by_cases hxf : x = st.fresh
      · have h2 : hfind (hset (hset st.heap st.fresh (.hDict [])) tgtAddr
            (.hDict (aset tKvs p.1 st.fresh))) x = some (.hDict []) := by
          rw [hxf, hfind_hset_ne _ _ (Ne.symm (Nat.ne_of_lt htgt_lt)), hfind_hset_self]
        unfold dictRange
        rw [h2]
        rfl
      · have hxt : x ≠ tgtAddr := fun he => absurd (he ▸ hx) (not_le.mpr htgt_lt)
        have h2 : hfind (hset (hset st.heap st.fresh (.hDict [])) tgtAddr
            (.hDict (aset tKvs p.1 st.fresh))) x = none := by
          rw [hfind_hset_ne _ _ hxt, hfind_hset_ne _ _ hxf]
          exact hfind_none_of_le hb hx
        unfold dictRange
        rw [h2]
    simp only [hG] at hrun
    exact mergeSector_tail hb hb1 (Nat.le_succ _) hG hC1 hRange1 hCell1 hHigh1 hrun

theorem foldlM_mergeSector_frame (tgtAddr : Addr) :
    ∀ (aKvs : List (String × Addr)) (st st' : MState),
      heapBounded st.heap st.fresh →
      aKvs.foldlM (mergeSector tgtAddr) st = some st' →
      st.fresh ≤ st'.fresh ∧ heapBounded st'.heap st'.fresh ∧
      (∀ x, x < st.fresh → x ∉ skel st.heap tgtAddr → hfind st'.heap x = hfind st.heap x) ∧
      (∀ x ∈ skel st'.heap tgtAddr, x ∈ skel st.heap tgtAddr ∨ st.fresh ≤ x)
  | [], st, st', hb, hrun => by
    obtain rfl : st = st' := by simpa using hrun
    exact ⟨le_refl _, hb, fun x _ _ => rfl, fun x hx => Or.inl hx⟩
  | q :: rest, st, st', hb, hrun => by
    rw [List.foldlM_cons] at hrun
    cases hs1 : mergeSector tgtAddr st q with
    | none =>
      rw [hs1] at hrun
      simp at hrun
    | some st1 =>
    rw [hs1] at hrun
    obtain ⟨hS1, hS2, hS3, hS4⟩ := mergeSector_frame hb hs1
    obtain ⟨hR1, hR2, hR3, hR4⟩ := foldlM_mergeSector_frame tgtAddr rest st1 st' hS2 hrun
    refine ⟨le_trans hS1 hR1, hR2, ?_, ?_⟩
    · intro x hx hsk
      have hx1 : x < st1.fresh := lt_of_lt_of_le hx hS1
      have hsk1 : x ∉ skel st1.heap tgtAddr := by
        intro hmem
        rcases hS4 x hmem with h2 | h2
        · exact hsk h2
        · exact absurd hx (not_lt.mpr h2)
      rw [hR3 x hx1 hsk1, hS3 x hx hsk]
    · intro x hx
      rcases hR4 x hx with h2 | h2
      · rcases hS4 x h2 with h3 | h3
        · exact Or.inl h3
        · exact Or.inr h3
      · exact Or.inr (le_trans hS1 h2)

/-- C9: `merge_results` mutates only its first argument.  On the heap
model: when the partial mapping shares no dict or list object with the
aggregate's skeleton (the situation of every call in the program, since
each partial comes fresh from `convert_one`), every object reachable
from the partial mapping — its dict, its sector dicts, their entry
lists, and the entry objects those lists hold — is exactly the same
object after the merge. -/
theorem merge_results_heap_frame (st st' : MState) (tgtAddr addAddr : Addr)
    (hb : heapBounded st.heap st.fresh)
    (hdisj : ∀ x ∈ reachAll st.heap addAddr, x ∉ skel st.heap tgtAddr)
    (hrun : merge_results_heap st tgtAddr addAddr = some st') :
    ∀ x ∈ reachAll st.heap addAddr, hfind st'.heap x = hfind st.heap x := by
  unfold merge_results_heap at hrun
  cases haobj : hfind st.heap addAddr with
  | none => simp [haobj] at hrun
  | some ao =>
  cases ao with
  | hList es => simp [haobj] at hrun
  | hEntry e => simp [haobj] at hrun
  | hDict aKvs =>
  simp only [haobj] at hrun
  have haddr_lt : addAddr < st.fresh := (hfind_lt hb haobj).1
  obtain ⟨_, _, hF3, _⟩ := foldlM_mergeSector_frame tgtAddr aKvs st st' hb hrun
  intro x hx
  exact hF3 x (reachAll_lt hb haddr_lt x hx) (hdisj x hx)

theorem merge_results_heap_frame_witness :
    hfind [(0, .hDict [("HAM", 1)]),
      (1, .hDict [("destinationLoas", 2), ("departureLoas", 9)]), (2, .hList [3, 8]),
      (3, .hEntry (mkEntry "destinations" (.vStr "A") (.vInt 1) [] (.vStr "X"))),
      (4, .hDict [("HAM", 5)]), (5, .hDict [("destinationLoas", 6), ("departureLoas", 7)]),
      (6, .hList [8]), (7, .hList []),
      (8, .hEntry (mkEntry "destinations" (.vStr "B") (.vInt 2) [] (.vStr "Y"))),
      (9, .hList [])] 5 =
    hfind [(0, .hDict [("HAM", 1)]), (1, .hDict [("destinationLoas", 2)]), (2, .hList [3]),
      (3, .hEntry (mkEntry "destinations" (.vStr "A") (.vInt 1) [] (.vStr "X"))),
      (4, .hDict [("HAM", 5)]), (5, .hDict [("destinationLoas", 6), ("departureLoas", 7)]),
      (6, .hList [8]), (7, .hList []),
      (8, .hEntry (mkEntry "destinations" (.vStr "B") (.vInt 2) [] (.vStr "Y")))] 5 :=
  merge_results_heap_frame
    ⟨[(0, .hDict [("HAM", 1)]), (1, .hDict [("destinationLoas", 2)]), (2, .hList [3]),
      (3, .hEntry (mkEntry "destinations" (.vStr "A") (.vInt 1) [] (.vStr "X"))),
      (4, .hDict [("HAM", 5)]), (5, .hDict [("destinationLoas", 6), ("departureLoas", 7)]),
      (6, .hList [8]), (7, .hList []),
      (8, .hEntry (mkEntry "destinations" (.vStr "B") (.vInt 2) [] (.vStr "Y")))], 9⟩
    ⟨[(0, .hDict [("HAM", 1)]),
      (1, .hDict [("destinationLoas", 2), ("departureLoas", 9)]), (2, .hList [3, 8]),
      (3, .hEntry (mkEntry "destinations" (.vStr "A") (.vInt 1) [] (.vStr "X"))),
      (4, .hDict [("HAM", 5)]), (5, .hDict [("destinationLoas", 6), ("departureLoas", 7)]),
      (6, .hList [8]), (7, .hList []),
      (8, .hEntry (mkEntry "destinations" (.vStr "B") (.vInt 2) [] (.vStr "Y"))),
      (9, .hList [])], 10⟩
    0 4 (by unfold heapBounded; decide) (by decide) rfl 5 (by decide)

end LOA
